import Mathlib

/-!
# tf-parser: block scanner and block registry

A shallow embedding of `main.go`: `DetermineResource`, `MapResource` and
`RetrieveResourceBlocks`, together with the three `strings` functions they call.

* A Go `string` is its byte sequence, so strings are lists of bytes.
* A run-time panic (slice bounds, index out of range, failed type assertion)
  is an `Except.error`.
* Go `int` values are unbounded integers; the counters of the scanner are
  bounded by the number of bytes of the input, far below `2^63`.
* A `map[string]V` is an association list with `get?`/`set`; maps are
  allocated (none is `nil`), as everything built by `make` or a literal is.
-/

namespace TfParser

/-! ## Strings -/

/-- A Go string: an immutable sequence of bytes. -/
abbrev GoString := List UInt8

/-- The bytes of a string literal (Go source text is UTF-8). -/
def str (s : String) : GoString := s.toUTF8.data.toList

/-- The byte `'{'`. -/
def lbrace : UInt8 := 123

/-- The byte `'}'`. -/
def rbrace : UInt8 := 125

/-- The byte `' '`. -/
def space : UInt8 := 32

/-- The byte `'"'`. -/
def dquote : UInt8 := 34

/-- The byte `'.'`. -/
def dot : UInt8 := 46

/-- Run-time panics of the Go program. -/
inductive Fault where
  | sliceBounds
  | indexRange
  | typeAssertion
  deriving DecidableEq, Repr

/-- Decidable equality of results, for evaluating the embedding on inputs. -/
instance {ε α : Type} [DecidableEq ε] [DecidableEq α] : DecidableEq (Except ε α)
  | .ok a, .ok b => if h : a = b then isTrue (by rw [h]) else isFalse (by intro e; cases e; exact h rfl)
  | .error a, .error b => if h : a = b then isTrue (by rw [h]) else isFalse (by intro e; cases e; exact h rfl)
  | .ok _, .error _ => isFalse (by intro e; cases e)
  | .error _, .ok _ => isFalse (by intro e; cases e)

/-- The slice expression `s[lo:hi]`: panics unless `0 <= lo <= hi <= len(s)`
(for a slice of lines the upper bound is its capacity, which is at least its
length; the program never asks for more than the length). -/
def slice {α : Type} (s : List α) (lo hi : Int) : Except Fault (List α) :=
  if 0 ≤ lo ∧ lo ≤ hi ∧ hi ≤ (s.length : Int) then
    .ok ((s.drop lo.toNat).take (hi - lo).toNat)
  else
    .error Fault.sliceBounds

/-- The index expression `s[i]`: panics unless `0 <= i < len(s)`. -/
def index {α : Type} (s : List α) (i : Nat) : Except Fault α :=
  match s[i]? with
  | some a => .ok a
  | none => .error Fault.indexRange

/-- The call `strings.Contains(s, string(c))` for a one-byte substring. -/
def strings.Contains (s : GoString) (c : UInt8) : Bool := s.contains c

/-- The call `strings.Split(s, string(sep))` for a one-byte separator: the
pieces of `s` between the separators; never an empty list. -/
def strings.Split : GoString → UInt8 → List GoString
  | [], _ => [[]]
  | c :: cs, sep =>
    if c = sep then [] :: strings.Split cs sep
    else
      match strings.Split cs sep with
      | [] => [[c]]
      | p :: ps => (c :: p) :: ps

/-- The call `strings.Join(elems, sep)`. -/
def strings.Join (elems : List GoString) (sep : GoString) : GoString :=
  sep.intercalate elems

/-- The call `strings.ReplaceAll(s, string(old), new)` for a one-byte `old`. -/
def strings.ReplaceAll (s : GoString) (old : UInt8) (new : GoString) : GoString :=
  s.flatMap (fun c => if c = old then new else [c])

/-! ## DetermineResource -/

/-- The backward loop of `DetermineResource`: with `n = i + 1` positions left
to visit, the index of the first `'{'` met going down from `i`, if any. -/
def lastBrace (line : GoString) : Nat → Option Nat
  | 0 => none
  | i + 1 => if (line)[i]? = some lbrace then some i else lastBrace line i

/-- `DetermineResource(line)`: the header is `line[0 : i-1]` for the rightmost
`'{'` at index `i` (empty when there is none); the type is its first
space-separated piece, the name the other pieces joined with `.` and stripped
of double quotes. -/
def DetermineResource (line : GoString) : Except Fault (GoString × GoString) := do
  let resourceText ←
    match lastBrace line line.length with
    | some i => slice line 0 ((i : Int) - 1)
    | none => pure []
  let parts := strings.Split resourceText space
  let resourceType ← index parts 0
  let resourceName ←
    if parts.length > 1 then do
      let rest ← slice parts 1 parts.length
      pure (strings.ReplaceAll (strings.Join rest [dot]) dquote [])
    else pure []
  pure (resourceType, resourceName)

/-! ## The registry -/

/-- A Go map with string keys: an association list, in which the first pair
carrying a key is the entry of that key. -/
abbrev GoMap (V : Type) := List (GoString × V)

/-- The read `v, exists := m[k]`. -/
def mapIndex {V : Type} : GoMap V → GoString → Option V
  | [], _ => none
  | (k', v) :: rest, k => if k' = k then some v else mapIndex rest k

/-- The assignment `m[k] = v`. -/
def mapAssign {V : Type} : GoMap V → GoString → V → GoMap V
  | [], k, v => [(k, v)]
  | (k', v') :: rest, k, v =>
    if k' = k then (k, v) :: rest else (k', v') :: mapAssign rest k v

/-- The dynamic values an `interface{}` entry of the registry can hold. -/
inductive Value where
  /-- A `[][]string`. -/
  | blockList (blocks : List (List GoString))
  /-- A `map[string][]string`. -/
  | nameMap (m : GoMap (List GoString))
  /-- A value of any other dynamic type. -/
  | other
  deriving DecidableEq

/-- The registry `map[string]interface{}`. -/
abbrev Registry := GoMap Value

/-- The key `"locals"`. -/
def locals : GoString := str "locals"

/-- `MapResource(hm, resourceType, resourceName, lines)`. -/
def MapResource (hm : Registry) (resourceType resourceName : GoString)
    (lines : List GoString) : Except Fault Registry :=
  let hm := if (mapIndex hm locals).isSome then hm else mapAssign hm locals (Value.blockList [])
  let hm := if (mapIndex hm resourceType).isSome then hm
            else mapAssign hm resourceType (Value.nameMap [])
  if resourceType = locals then
    match mapIndex hm locals with
    | some (Value.blockList l) => .ok (mapAssign hm locals (Value.blockList (l ++ [lines])))
    | _ => .error Fault.typeAssertion
  else
    match mapIndex hm resourceType with
    | some (Value.nameMap m) =>
      .ok (mapAssign hm resourceType (Value.nameMap (mapAssign m resourceName lines)))
    | _ => .error Fault.typeAssertion

/-- The read `hm["locals"].([][]string)` (as in `TestMapResourceLocals`). -/
def anonymousList (hm : Registry) : Option (List (List GoString)) :=
  match mapIndex hm locals with
  | some (Value.blockList l) => some l
  | _ => none

/-- The read `hm[t].(map[string][]string)[n]` (as in `TestMapResourceResource`). -/
def namedEntry (hm : Registry) (t n : GoString) : Option (List GoString) :=
  match mapIndex hm t with
  | some (Value.nameMap m) => mapIndex m n
  | _ => none

/-- The dynamic type the program expects under key `k`: a `[][]string` under
`"locals"`, a `map[string][]string` under every other key. -/
def ValueFits (k : GoString) (v : Value) : Prop :=
  if k = locals then ∃ l, v = Value.blockList l else ∃ m, v = Value.nameMap m

/-- Registry well-formedness: the key `"locals"`, when present, holds a list of
line lists, and every other key holds a name-to-lines mapping. -/
def WellFormed (hm : Registry) : Prop :=
  ∀ k v, mapIndex hm k = some v → ValueFits k v

/-! ## RetrieveResourceBlocks -/

/-- A block handed to `MapResource` by the scanner, with the line range that
the `Debugf` call before it reports (0-based here). -/
structure Block where
  blockType : GoString
  blockName : GoString
  startLine : Int
  endLine : Int
  lines : List GoString
  deriving DecidableEq

/-- The local variables of `RetrieveResourceBlocks`; `emitted` is a ghost
field: the blocks registered so far, in order. -/
structure ScanState where
  parsingResource : Bool
  resourceType : GoString
  resourceName : GoString
  startLine : Int
  endLine : Int
  bracketValue : Int
  resourceHashMap : Registry
  emitted : List Block

/-- The state before the first iteration. -/
def initState : ScanState :=
  { parsingResource := false, resourceType := [], resourceName := [],
    startLine := -1, endLine := -1, bracketValue := 0,
    resourceHashMap := [], emitted := [] }

/-- The inner loop over the bytes of a line: `+1` on `'{'`, `-1` on `'}'`. -/
def countBrackets (line : GoString) (bracketValue : Int) : Int :=
  line.foldl (fun b c =>
    let b := if c = lbrace then b + 1 else b
    if c = rbrace then b - 1 else b) bracketValue

/-- Lines 200-210 of the loop body: outside a block, a line containing `'{'`
opens one and is classified; any other line leaves the state as it is. -/
def openBlock (line : GoString) (i : Nat) (s : ScanState) : Except Fault ScanState :=
  if !s.parsingResource then
    if strings.Contains line lbrace then do
      let (resourceType, resourceName) ← DetermineResource line
      pure { s with startLine := i, parsingResource := true,
                    resourceType := resourceType, resourceName := resourceName }
    else pure s
  else pure s

/-- Lines 212-228 of the loop body: count the brackets of the line and, when the
counter is back to 0, register the block `lines[startLine : endLine+1]`. -/
def closeBlock (lines : List GoString) (i : Nat) (line : GoString) (s : ScanState) :
    Except Fault ScanState :=
  let s := { s with bracketValue := countBrackets line s.bracketValue }
  if s.bracketValue = 0 then do
    let s := { s with parsingResource := false, endLine := i }
    let blockLines ← slice lines s.startLine (s.endLine + 1)
    let hm ← MapResource s.resourceHashMap s.resourceType s.resourceName blockLines
    pure { s with
      resourceHashMap := hm,
      emitted := s.emitted ++
        [{ blockType := s.resourceType, blockName := s.resourceName,
           startLine := s.startLine, endLine := s.endLine, lines := blockLines }],
      startLine := -1, endLine := -1 }
  else pure s

/-- One iteration of the outer loop, at index `i`; the `continue` of line 208
skips the counting when no block is open. -/
def loopBody (lines : List GoString) (i : Nat) (s : ScanState) : Except Fault ScanState := do
  let line ← index lines i
  let s ← openBlock line i s
  if !s.parsingResource then
    pure s
  else
    closeBlock lines i line s

/-- The outer loop `for i := ...; i < len(lines); i++` with `n = len(lines) - i`
iterations to go; a panic stops it, keeping the state of the last completed
iteration. -/
def scanLoop (lines : List GoString) : Nat → Nat → ScanState → ScanState × Option Fault
  | 0, _, s => (s, none)
  | n + 1, i, s =>
    match loopBody lines i s with
    | .ok s' => scanLoop lines n (i + 1) s'
    | .error f => (s, some f)

/-- The whole run of the scanner on `lines`. -/
def scan (lines : List GoString) : ScanState × Option Fault :=
  scanLoop lines lines.length 0 initState

/-- `RetrieveResourceBlocks(lines)`: the registry, or the panic that stopped
the scan. -/
def RetrieveResourceBlocks (lines : List GoString) : Except Fault Registry :=
  match scan lines with
  | (s, none) => .ok s.resourceHashMap
  | (_, some f) => .error f

/-- The blocks emitted by `RetrieveResourceBlocks(lines)`, in emission order. -/
def emittedBlocks (lines : List GoString) : List Block :=
  (scan lines).1.emitted

/-! ## The commands and the extension check -/

/-- The byte of a line feed. -/
def newline : UInt8 := 10

/-- The call `strings.HasSuffix(s, suffix)`:
`len(s) >= len(suffix) && s[len(s)-len(suffix):] == suffix`. -/
def strings.HasSuffix (s suffix : GoString) : Bool :=
  decide (s.length ≥ suffix.length) && (s.drop (s.length - suffix.length) == suffix)

/-- `CheckValidExtension(fileName)`, without its log line. -/
def CheckValidExtension (fileName : GoString) : Bool :=
  if !strings.HasSuffix fileName (str ".tf") then false else true

/-- The text that `ExtractResourcesToFile(resourceMap, resourceBlock, fileName)`
writes to the file it creates (lines 96-109), the calls of `WriteString` taken
in order; creating and writing the file are taken to succeed. -/
def ExtractResourcesToFile (resourceMap : Registry) (resourceBlock : GoString) :
    Except Fault GoString :=
  if resourceBlock = locals then
    match mapIndex resourceMap locals with
    | some (Value.blockList blocks) =>
      .ok (blocks.foldl (fun file localLines =>
        (localLines.foldl (fun file line => file ++ (line ++ [newline])) file) ++ [newline]) [])
    | _ => .error Fault.typeAssertion
  else .ok []

/-- The `list` command of `main` (lines 70-76): every key other than `"locals"`
is read as a `map[string][]string` and its names are logged. The result is the
list of logged names; the keys are visited in the order of the association
list (Go leaves the order unspecified). -/
def listCommand (resourceHashMap : Registry) : Except Fault (List GoString) :=
  (resourceHashMap.map Prod.fst).dedup.foldlM (fun logged key =>
    if key ≠ locals then
      match mapIndex resourceHashMap key with
      | some (Value.nameMap m) => .ok (logged ++ (m.map Prod.fst).dedup)
      | _ => .error Fault.typeAssertion
    else .ok logged) []

/-! ## Vocabulary of the properties -/

/-- The guarded creation `if _, exists := hm[k]; !exists { hm[k] = v }`. -/
def ensureKey (hm : Registry) (k : GoString) (v : Value) : Registry :=
  if (mapIndex hm k).isSome then hm else mapAssign hm k v

/-- The name-to-lines mapping held under `t`, empty when the key is absent. -/
def namedMap (hm : Registry) (t : GoString) : GoMap (List GoString) :=
  match mapIndex hm t with
  | some (Value.nameMap m) => m
  | _ => []

/-- The registry literal of `TestMapResourceResource` and `TestMapResourceLocals`. -/
def testHashMap : Registry :=
  [(str "locals", Value.blockList
      [[str "1-line-1", str "1-line-2"], [str "2-line-1", str "2-line-2"]]),
   (str "resource", Value.nameMap
      [(str "aws_route_table.public", [str "1-line-1", str "1-line-2", str "1-line-3"]),
       (str "aws_route.public_internet_gateway", [str "2-line-1", str "2-line-2"])])]

/-- The `m` lines of `lines` from index `st` on. -/
def window (lines : List GoString) (st m : Nat) : List GoString :=
  (lines.drop st).take m

/-- The lines of index `a` to `b` inclusive. -/
def lineRange (lines : List GoString) (a b : Int) : List GoString :=
  window lines a.toNat (b + 1 - a).toNat

/-- The number of bytes `c` in a run of lines. -/
def braceCount (c : UInt8) (ls : List GoString) : Nat :=
  (ls.map (List.count c)).sum

/-- The net count of a run of lines: its `'{'` minus its `'}'`. -/
def netDepth (ls : List GoString) : Int :=
  (braceCount lbrace ls : Int) - (braceCount rbrace ls : Int)

/-- The end line of the last block of `bs`, or `p` when there is none. -/
def lastEnd : Int → List Block → Int
  | p, [] => p
  | _, b :: bs => lastEnd b.endLine bs

/-- What holds of an emitted block `b` when the block before it ended at line
`p` (`-1` for the first block): it opens at the first line after `p` that
contains `'{'`, is classified from that line, holds the lines of its range, and
its range ends at the first line where the net count is back to 0. -/
def BlockOK (lines : List GoString) (p : Int) (b : Block) : Prop :=
  ∃ st en : Nat, b.startLine = st ∧ b.endLine = en ∧ p < st ∧ st ≤ en ∧ en < lines.length ∧
    b.lines = window lines st (en + 1 - st) ∧
    (∃ line, lines[st]? = some line ∧ lbrace ∈ line ∧
      DetermineResource line = .ok (b.blockType, b.blockName)) ∧
    (∀ j : Nat, p < j → j < st → ∀ line, lines[j]? = some line → lbrace ∉ line) ∧
    netDepth (window lines st (en + 1 - st)) = 0 ∧
    (∀ m : Nat, 0 < m → m < en + 1 - st → netDepth (window lines st m) ≠ 0)

/-- Every block of the list satisfies `BlockOK` after its predecessor. -/
def Chain (lines : List GoString) : Int → List Block → Prop
  | _, [] => True
  | p, b :: bs => BlockOK lines p b ∧ Chain lines b.endLine bs

/-- The state of a scan with an open block, before line `i` is counted. -/
def Busy (lines : List GoString) (i : Nat) (s : ScanState) : Prop :=
  ∃ st : Nat, s.startLine = st ∧ lastEnd (-1) s.emitted < st ∧ st ≤ i ∧
    (∃ line, lines[st]? = some line ∧ lbrace ∈ line ∧
      DetermineResource line = .ok (s.resourceType, s.resourceName)) ∧
    (∀ j : Nat, lastEnd (-1) s.emitted < j → j < st → ∀ line, lines[j]? = some line →
      lbrace ∉ line) ∧
    s.bracketValue = netDepth (window lines st (i - st)) ∧
    (∀ m : Nat, 0 < m → m ≤ i - st → netDepth (window lines st m) ≠ 0)

/-- The loop invariant at the top of iteration `i`. -/
structure Inv (lines : List GoString) (i : Nat) (s : ScanState) : Prop where
  wf : WellFormed s.resourceHashMap
  chain : Chain lines (-1) s.emitted
  last_lt : lastEnd (-1) s.emitted < i
  idle : s.parsingResource = false → s.bracketValue = 0 ∧
    ∀ j : Nat, lastEnd (-1) s.emitted < j → j < i → ∀ line, lines[j]? = some line →
      lbrace ∉ line
  busy : s.parsingResource = true → Busy lines i s

/-- A small input: a comment, a three-line `locals` block, a blank line, a
two-line `resource` block and a trailing block that is never closed. -/
def sampleLines : List GoString :=
  [str "# vpc", str "locals \x7b", str "  tags = \x7b\x7d", str "\x7d", str "",
   str "resource \"aws_vpc\" \"this\" \x7b", str "\x7d", str "output \x7b"]

/-- The first block of `sampleLines`. -/
def sampleLocals : Block :=
  { blockType := str "locals", blockName := str "", startLine := 1, endLine := 3,
    lines := [str "locals \x7b", str "  tags = \x7b\x7d", str "\x7d"] }

/-- The second block of `sampleLines`. -/
def sampleVpc : Block :=
  { blockType := str "resource", blockName := str "aws_vpc.this", startLine := 5, endLine := 6,
    lines := [str "resource \"aws_vpc\" \"this\" \x7b", str "\x7d"] }

/-- The classification of a header in the words of the specification: the
header is split on every single space; the type is the first piece; the name is
empty when there is one piece only, and otherwise the other pieces, each with
its double quotes removed, joined with `.`. -/
def classifySpec (header : GoString) : GoString × GoString :=
  let pieces := header.splitOn space
  (pieces.headD [],
   if pieces.length ≤ 1 then []
   else [dot].intercalate ((pieces.drop 1).map (fun piece => piece.filter (fun c => c ≠ dquote))))

/-- The extracted text in the words of the specification: every line of each
entry followed by a newline, and exactly one blank line between successive
entries, none elsewhere. -/
def extractTextSpec (blocks : List (List GoString)) : GoString :=
  [newline].intercalate (blocks.map (fun b => b.flatMap (fun line => line ++ [newline])))

/-- The text of one entry as the code writes it: every line followed by a
newline, then one blank line. -/
def entryText (b : List GoString) : GoString :=
  b.flatMap (fun line => line ++ [newline]) ++ [newline]

/-- The running brace depth after the bytes `pfx`, counted from 0: `+1` per
`'{'`, `-1` per `'}'`. -/
def charDepth (pfx : GoString) : Int :=
  (pfx.count lbrace : Int) - (pfx.count rbrace : Int)

/-- A one-line input whose only line closes a brace before it opens one. -/
def closeFirstLines : List GoString := [str "\x7d \x7b"]

/-- The block emitted on `closeFirstLines`. -/
def closeFirstBlock : Block :=
  { blockType := str "\x7d", blockName := str "", startLine := 0, endLine := 0,
    lines := [str "\x7d \x7b"] }

/-! ## Sequencing of fallible steps -/

theorem ok_bind {α β : Type} (a : α) (f : α → Except Fault β) :
    (Except.ok a >>= f) = f a := rfl

theorem pure_bind_except {α β : Type} (a : α) (f : α → Except Fault β) :
    ((pure a : Except Fault α) >>= f) = f a := rfl

theorem error_bind {α β : Type} (e : Fault) (f : α → Except Fault β) :
    ((Except.error e : Except Fault α) >>= f) = Except.error e := rfl

/-! ## Facts about the string functions -/

theorem split_no_sep (p : GoString) (sep : UInt8) (h : sep ∉ p) :
    strings.Split p sep = [p] := by
  induction p with
  | nil => rfl
  | cons c cs ih =>
    have hc : c ≠ sep := fun e => h (by simp [e])
    have hcs : sep ∉ cs := fun e => h (by simp [e])
    simp [strings.Split, hc, ih hcs]

theorem split_append_sep (p r : GoString) (sep : UInt8) (h : sep ∉ p) :
    strings.Split (p ++ sep :: r) sep = p :: strings.Split r sep := by
  induction p with
  | nil => simp [strings.Split]
  | cons c cs ih =>
    have hc : c ≠ sep := fun e => h (by simp [e])
    have hcs : sep ∉ cs := fun e => h (by simp [e])
    simp [strings.Split, hc, ih hcs]

theorem replaceAll_append (a b : GoString) (old : UInt8) (new : GoString) :
    strings.ReplaceAll (a ++ b) old new
      = strings.ReplaceAll a old new ++ strings.ReplaceAll b old new := by
  simp [strings.ReplaceAll]

theorem replaceAll_absent (a : GoString) (old : UInt8) (new : GoString) (h : old ∉ a) :
    strings.ReplaceAll a old new = a := by
  induction a with
  | nil => rfl
  | cons c cs ih =>
    have hc : c ≠ old := fun e => h (by simp [e])
    have hcs : old ∉ cs := fun e => h (by simp [e])
    have := ih hcs
    simp only [strings.ReplaceAll] at this ⊢
    simp [hc, this]

/-- The backward loop started at the end of `h ++ [c, '{']` stops at once. -/
theorem lastBrace_header (h : GoString) (c : UInt8) :
    lastBrace (h ++ [c, lbrace]) (h ++ [c, lbrace]).length = some (h.length + 1) := by
  have : (h ++ [c, lbrace]).length = (h.length + 1) + 1 := by simp
  have e : (h ++ [c, lbrace])[h.length + 1]? = some lbrace := by
    rw [List.getElem?_append_right (by omega)]
    simp
  rw [this, lastBrace, if_pos e]

/-- The header slice of `h ++ [c, '{']` is `h`. -/
theorem slice_header (h : GoString) (c : UInt8) :
    slice (h ++ [c, lbrace]) 0 (((h.length + 1 : Nat) : Int) - 1) = .ok h := by
  have e : ((h.length + 1 : Nat) : Int) - 1 = (h.length : Int) := by push_cast; ring
  rw [e]
  simp [slice]

/-- The backward loop on a line whose only `'{'` is its first byte ends at 0. -/
theorem lastBrace_first (rest : GoString) (h : lbrace ∉ rest) (n : Nat) :
    lastBrace (lbrace :: rest) (n + 1) = some 0 := by
  induction n with
  | zero => simp [lastBrace]
  | succ n ih =>
    rw [lastBrace]
    have : (lbrace :: rest)[n + 1]? ≠ some lbrace := by
      intro e
      rw [List.getElem?_cons_succ] at e
      exact h (List.getElem?_mem e)
    rw [if_neg this, ih]

/-! ## DetermineResource on block headers -/

/-- C3: for every `T` without a space and without `'{'`, `DetermineResource`
applied to `T` followed by a space and `'{'` returns type `T` and the empty
name. -/
theorem determineResource_bare_header (T : GoString)
    (hs : space ∉ T) (_hb : lbrace ∉ T) :
    DetermineResource (T ++ str " \x7b") = .ok (T, str "") := by
  have e : str " \x7b" = [space, lbrace] := by decide
  have e' : str "" = [] := by decide
  rw [e, e']
  unfold DetermineResource
  rw [lastBrace_header]
  simp only []
  rw [slice_header, ok_bind, split_no_sep T space hs]
  rfl

theorem determineResource_bare_header_witness :
    space ∉ str "locals" ∧ lbrace ∉ str "locals" ∧
      DetermineResource (str "locals" ++ str " \x7b") = .ok (str "locals", str "") :=
  ⟨by decide, by decide, determineResource_bare_header (str "locals") (by decide) (by decide)⟩

/-- Stripping the double quotes of a quoted label that has none inside. -/
theorem replaceAll_quoted (A : GoString) (h : dquote ∉ A) :
    strings.ReplaceAll (dquote :: (A ++ [dquote])) dquote [] = A := by
  have e : dquote :: (A ++ [dquote]) = [dquote] ++ (A ++ [dquote]) := rfl
  rw [e, replaceAll_append, replaceAll_append, replaceAll_absent A dquote [] h]
  simp [strings.ReplaceAll]

/-- C2: for `T` without space and `'{'`, and `A`, `B` without space, double
quote and `'{'`, `DetermineResource` applied to `T "A" "B" {` returns type `T`
and name `A.B`. -/
theorem determineResource_labelled_header (T A B : GoString)
    (hT : space ∉ T) (_hTb : lbrace ∉ T)
    (hA : space ∉ A) (hAq : dquote ∉ A) (_hAb : lbrace ∉ A)
    (hB : space ∉ B) (hBq : dquote ∉ B) (_hBb : lbrace ∉ B) :
    DetermineResource (T ++ str " \"" ++ A ++ str "\" \"" ++ B ++ str "\" \x7b")
      = .ok (T, A ++ str "." ++ B) := by
  have e1 : str " \"" = [space, dquote] := by decide
  have e2 : str "\" \"" = [dquote, space, dquote] := by decide
  have e3 : str "\" \x7b" = [dquote, space, lbrace] := by decide
  have e4 : str "." = [dot] := by decide
  have hline : T ++ [space, dquote] ++ A ++ [dquote, space, dquote] ++ B ++ [dquote, space, lbrace]
      = (T ++ space :: ((dquote :: (A ++ [dquote])) ++ space :: (dquote :: (B ++ [dquote]))))
          ++ [space, lbrace] := by simp
  have hqA : space ∉ dquote :: (A ++ [dquote]) := by
    have : space ≠ dquote := by decide
    simp [hA, this]
  have hqB : space ∉ dquote :: (B ++ [dquote]) := by
    have : space ≠ dquote := by decide
    simp [hB, this]
  rw [e1, e2, e3, e4, hline]
  unfold DetermineResource
  rw [lastBrace_header]
  simp only []
  rw [slice_header, ok_bind, split_append_sep T _ space hT, split_append_sep _ _ space hqA,
    split_no_sep _ space hqB]
  have hs : slice [T, dquote :: (A ++ [dquote]), dquote :: (B ++ [dquote])] 1
      (([T, dquote :: (A ++ [dquote]), dquote :: (B ++ [dquote])].length : Nat) : Int)
      = .ok [dquote :: (A ++ [dquote]), dquote :: (B ++ [dquote])] := by
    simp [slice]
  have hj : strings.Join [dquote :: (A ++ [dquote]), dquote :: (B ++ [dquote])] [dot]
      = (dquote :: (A ++ [dquote])) ++ ([dot] ++ (dquote :: (B ++ [dquote]))) := by
    simp [strings.Join, List.intercalate]
  have hd : strings.ReplaceAll [dot] dquote [] = [dot] := by decide
  have hr : strings.ReplaceAll
      (strings.Join [dquote :: (A ++ [dquote]), dquote :: (B ++ [dquote])] [dot]) dquote []
      = A ++ [dot] ++ B := by
    rw [hj, replaceAll_append, replaceAll_append, replaceAll_quoted A hAq,
      replaceAll_quoted B hBq, hd]
    simp
  have hi : index [T, dquote :: (A ++ [dquote]), dquote :: (B ++ [dquote])] 0 = .ok T := rfl
  rw [hi, ok_bind, if_pos (by simp), hs, ok_bind, hr]
  rfl

theorem determineResource_labelled_header_witness :
    DetermineResource (str "resource \"aws_route_table\" \"public\" \x7b")
      = .ok (str "resource", str "aws_route_table.public") :=
  determineResource_labelled_header (str "resource") (str "aws_route_table") (str "public")
    (by decide) (by decide) (by decide) (by decide) (by decide) (by decide) (by decide)
    (by decide)

/-- A line whose only `'{'` is its first byte makes `DetermineResource` panic
on the slice `line[0 : -1]`. -/
theorem determineResource_brace_first (rest : GoString) (h : lbrace ∉ rest) :
    DetermineResource (lbrace :: rest) = .error Fault.sliceBounds := by
  unfold DetermineResource
  have : (lbrace :: rest).length = rest.length + 1 := rfl
  rw [this, lastBrace_first rest h]
  rfl

/-- C4: on the line `{`, whose rightmost opening brace is its first character,
`DetermineResource` panics (slice bounds out of range) instead of returning an
empty type and an empty name. -/
theorem determineResource_lone_brace_faults :
    DetermineResource (str "\x7b") = .error Fault.sliceBounds := by decide

/-- C1: on the input `{`, `}` the scan stops with a panic (slice bounds out of
range, raised by `DetermineResource` on the first line) and returns no
registry. -/
theorem retrieveResourceBlocks_faults :
    RetrieveResourceBlocks [str "\x7b", str "\x7d"] = .error Fault.sliceBounds := by decide

/-! ## Maps -/

theorem mapIndex_assign_self {V : Type} (m : GoMap V) (k : GoString) (v : V) :
    mapIndex (mapAssign m k v) k = some v := by
  induction m with
  | nil => simp [mapAssign, mapIndex]
  | cons p rest ih =>
    obtain ⟨k', v'⟩ := p
    by_cases h : k' = k
    · simp [mapAssign, mapIndex, h]
    · simp [mapAssign, mapIndex, h, ih]

theorem mapIndex_assign_ne {V : Type} (m : GoMap V) (k k' : GoString) (v : V) (h : k' ≠ k) :
    mapIndex (mapAssign m k v) k' = mapIndex m k' := by
  induction m with
  | nil => simp [mapAssign, mapIndex, Ne.symm h]
  | cons p rest ih =>
    obtain ⟨k0, v0⟩ := p
    by_cases h0 : k0 = k
    · have : k0 ≠ k' := fun e => h (e ▸ h0)
      simp [mapAssign, mapIndex, h0, Ne.symm h, this]
    · by_cases h1 : k0 = k'
      · subst h1
        simp [mapAssign, mapIndex, h0]
      · simp [mapAssign, mapIndex, h0, h1, ih]

theorem mapIndex_ensureKey_self (hm : Registry) (k : GoString) (v : Value) :
    mapIndex (ensureKey hm k v) k = some ((mapIndex hm k).getD v) := by
  unfold ensureKey
  cases h : mapIndex hm k with
  | none => simp [mapIndex_assign_self]
  | some w => simp [h]

theorem mapIndex_ensureKey_ne (hm : Registry) (k k' : GoString) (v : Value) (h : k' ≠ k) :
    mapIndex (ensureKey hm k v) k' = mapIndex hm k' := by
  unfold ensureKey
  split
  · rfl
  · exact mapIndex_assign_ne hm k k' v h

theorem wellFormed_nil : WellFormed [] := by
  intro k v h
  simp [mapIndex] at h

theorem wellFormed_assign (hm : Registry) (k : GoString) (v : Value)
    (hwf : WellFormed hm) (hv : ValueFits k v) : WellFormed (mapAssign hm k v) := by
  intro k' v' h
  by_cases e : k' = k
  · subst e
    rw [mapIndex_assign_self] at h
    cases h
    exact hv
  · rw [mapIndex_assign_ne hm k k' v e] at h
    exact hwf k' v' h

theorem wellFormed_ensureKey (hm : Registry) (k : GoString) (v : Value)
    (hwf : WellFormed hm) (hv : ValueFits k v) : WellFormed (ensureKey hm k v) := by
  unfold ensureKey
  split
  · exact hwf
  · exact wellFormed_assign hm k v hwf hv

theorem valueFits_blockList (l : List (List GoString)) : ValueFits locals (Value.blockList l) := by
  simp [ValueFits]

theorem valueFits_nameMap (t : GoString) (ht : t ≠ locals) (m : GoMap (List GoString)) :
    ValueFits t (Value.nameMap m) := by
  simp [ValueFits, ht]

/-- `MapResource` in terms of the two guarded creations. -/
theorem mapResource_eq (hm : Registry) (t n : GoString) (l : List GoString) :
    MapResource hm t n l =
      (if t = locals then
        match mapIndex (ensureKey (ensureKey hm locals (Value.blockList [])) t (Value.nameMap []))
            locals with
        | some (Value.blockList b) =>
          .ok (mapAssign (ensureKey (ensureKey hm locals (Value.blockList [])) t (Value.nameMap []))
            locals (Value.blockList (b ++ [l])))
        | _ => .error Fault.typeAssertion
      else
        match mapIndex (ensureKey (ensureKey hm locals (Value.blockList [])) t (Value.nameMap []))
            t with
        | some (Value.nameMap m) =>
          .ok (mapAssign (ensureKey (ensureKey hm locals (Value.blockList [])) t (Value.nameMap []))
            t (Value.nameMap (mapAssign m n l)))
        | _ => .error Fault.typeAssertion) := rfl

/-- On a well-formed registry, registering under `"locals"` appends to the
anonymous list (created empty when absent). -/
theorem mapResource_locals_eq (hm : Registry) (n : GoString) (l : List GoString)
    (hwf : WellFormed hm) :
    MapResource hm locals n l =
      .ok (mapAssign (ensureKey hm locals (Value.blockList [])) locals
        (Value.blockList ((anonymousList hm).getD [] ++ [l]))) := by
  rw [mapResource_eq, if_pos rfl]
  have h1 : mapIndex (ensureKey hm locals (Value.blockList [])) locals
      = some ((mapIndex hm locals).getD (Value.blockList [])) := mapIndex_ensureKey_self _ _ _
  have h2 : ensureKey (ensureKey hm locals (Value.blockList [])) locals (Value.nameMap [])
      = ensureKey hm locals (Value.blockList []) := by
    rw [ensureKey, h1]; rfl
  rw [h2, h1]
  cases h : mapIndex hm locals with
  | none => simp [anonymousList, h]
  | some v =>
    have hv := hwf locals v h
    simp only [ValueFits, if_pos] at hv
    obtain ⟨b, rfl⟩ := hv
    simp [anonymousList, h]

/-- On a well-formed registry, registering under a type other than `"locals"`
sets the entry of the name in the mapping of that type (created empty when
absent). -/
theorem mapResource_named_eq (hm : Registry) (t n : GoString) (l : List GoString)
    (hwf : WellFormed hm) (ht : t ≠ locals) :
    MapResource hm t n l =
      .ok (mapAssign (ensureKey (ensureKey hm locals (Value.blockList [])) t (Value.nameMap []))
        t (Value.nameMap (mapAssign (namedMap hm t) n l))) := by
  rw [mapResource_eq, if_neg ht]
  have h1 : mapIndex (ensureKey (ensureKey hm locals (Value.blockList [])) t (Value.nameMap [])) t
      = some ((mapIndex hm t).getD (Value.nameMap [])) := by
    rw [mapIndex_ensureKey_self, mapIndex_ensureKey_ne _ _ _ _ ht]
  rw [h1]
  cases h : mapIndex hm t with
  | none => simp [namedMap, h]
  | some v =>
    have hv := hwf t v h
    simp only [ValueFits, if_neg ht] at hv
    obtain ⟨m, rfl⟩ := hv
    simp [namedMap, h]

/-- `MapResource` never panics on a well-formed registry, and its result is
well-formed. -/
theorem mapResource_wellFormed (hm : Registry) (t n : GoString) (l : List GoString)
    (hwf : WellFormed hm) :
    ∃ hm', MapResource hm t n l = .ok hm' ∧ WellFormed hm' := by
  by_cases ht : t = locals
  · subst ht
    refine ⟨_, mapResource_locals_eq hm n l hwf, ?_⟩
    exact wellFormed_assign _ _ _ (wellFormed_ensureKey _ _ _ hwf (valueFits_blockList _))
      (valueFits_blockList _)
  · refine ⟨_, mapResource_named_eq hm t n l hwf ht, ?_⟩
    exact wellFormed_assign _ _ _
      (wellFormed_ensureKey _ _ _ (wellFormed_ensureKey _ _ _ hwf (valueFits_blockList _))
        (valueFits_nameMap t ht _))
      (valueFits_nameMap t ht _)

/-- After registering `l` as `n` under `t`, the entry of `n` under `t` is `l`. -/
theorem mapResource_named_entry (hm : Registry) (t n : GoString) (l : List GoString)
    (hwf : WellFormed hm) (ht : t ≠ locals) :
    ∃ hm', MapResource hm t n l = .ok hm' ∧ WellFormed hm' ∧ namedEntry hm' t n = some l := by
  obtain ⟨hm', h, hwf'⟩ := mapResource_wellFormed hm t n l hwf
  refine ⟨hm', h, hwf', ?_⟩
  rw [mapResource_named_eq hm t n l hwf ht] at h
  cases h
  simp [namedEntry, mapIndex_assign_self]

theorem wellFormed_testHashMap : WellFormed testHashMap := by
  have e : testHashMap =
      mapAssign (mapAssign [] locals (Value.blockList
          [[str "1-line-1", str "1-line-2"], [str "2-line-1", str "2-line-2"]]))
        (str "resource") (Value.nameMap
          [(str "aws_route_table.public", [str "1-line-1", str "1-line-2", str "1-line-3"]),
           (str "aws_route.public_internet_gateway", [str "2-line-1", str "2-line-2"])]) := by
    decide
  rw [e]
  exact wellFormed_assign _ _ _ (wellFormed_assign _ _ _ wellFormed_nil (valueFits_blockList _))
    (valueFits_nameMap _ (by decide) _)

/-- C8: on a well-formed registry, for a type other than `"locals"`, a
registration under a name succeeds and leaves exactly the registered lines
under that name; a second registration under the same type and name succeeds
too and leaves exactly the second lines (last write wins). -/
theorem mapResource_last_write_wins (hm : Registry) (t n : GoString) (l1 l2 : List GoString)
    (hwf : WellFormed hm) (ht : t ≠ locals) :
    ∃ hm1 hm2, MapResource hm t n l1 = .ok hm1 ∧ namedEntry hm1 t n = some l1 ∧
      MapResource hm1 t n l2 = .ok hm2 ∧ namedEntry hm2 t n = some l2 := by
  obtain ⟨hm1, h1, hwf1, e1⟩ := mapResource_named_entry hm t n l1 hwf ht
  obtain ⟨hm2, h2, _, e2⟩ := mapResource_named_entry hm1 t n l2 hwf1 ht
  exact ⟨hm1, hm2, h1, e1, h2, e2⟩

theorem mapResource_last_write_wins_witness :
    WellFormed testHashMap ∧ str "resource" ≠ locals ∧
    ∃ hm1 hm2,
      MapResource testHashMap (str "resource") (str "aws_vpc.this")
        [str "3-line-1", str "3-line-2"] = .ok hm1 ∧
      namedEntry hm1 (str "resource") (str "aws_vpc.this")
        = some [str "3-line-1", str "3-line-2"] ∧
      MapResource hm1 (str "resource") (str "aws_vpc.this") [str "4-line-1"] = .ok hm2 ∧
      namedEntry hm2 (str "resource") (str "aws_vpc.this") = some [str "4-line-1"] :=
  ⟨wellFormed_testHashMap, by decide,
    mapResource_last_write_wins testHashMap (str "resource") (str "aws_vpc.this")
      [str "3-line-1", str "3-line-2"] [str "4-line-1"] wellFormed_testHashMap (by decide)⟩

/-- Registering under `"locals"`: the result and its anonymous list. -/
theorem mapResource_locals_entry (hm : Registry) (n : GoString) (l : List GoString)
    (hwf : WellFormed hm) :
    ∃ hm', MapResource hm locals n l = .ok hm' ∧ WellFormed hm' ∧
      anonymousList hm' = some ((anonymousList hm).getD [] ++ [l]) := by
  obtain ⟨hm', h, hwf'⟩ := mapResource_wellFormed hm locals n l hwf
  refine ⟨hm', h, hwf', ?_⟩
  rw [mapResource_locals_eq hm n l hwf] at h
  cases h
  simp [anonymousList, mapIndex_assign_self]

/-- Registering a sequence of blocks under `"locals"`, whatever their names. -/
theorem mapResource_locals_fold (blocks : List (GoString × List GoString)) (hm : Registry)
    (hwf : WellFormed hm) :
    ∃ hmN, blocks.foldlM (fun acc b => MapResource acc locals b.1 b.2) hm = .ok hmN ∧
      (anonymousList hmN).getD [] = (anonymousList hm).getD [] ++ blocks.map Prod.snd := by
  induction blocks generalizing hm with
  | nil => exact ⟨hm, rfl, by simp⟩
  | cons b rest ih =>
    obtain ⟨hm1, h1, hwf1, e1⟩ := mapResource_locals_entry hm b.1 b.2 hwf
    obtain ⟨hmN, hN, eN⟩ := ih hm1 hwf1
    refine ⟨hmN, ?_, ?_⟩
    · rw [List.foldlM_cons, h1, ok_bind]
      exact hN
    · rw [eN, e1]
      simp

/-- C9: on a well-formed registry whose anonymous list is `L` (empty when the
key is absent), registering `l` under `"locals"` with any name succeeds and
makes the anonymous list `L ++ [l]`; hence registering a sequence of blocks
under `"locals"` appends their lines in registration order, so that `N` blocks
registered on the empty registry give a list of length `N`. -/
theorem mapResource_locals_appends (hm : Registry) (hwf : WellFormed hm) :
    (∀ (n : GoString) (l : List GoString), ∃ hm', MapResource hm locals n l = .ok hm' ∧
      anonymousList hm' = some ((anonymousList hm).getD [] ++ [l])) ∧
    (∀ blocks : List (GoString × List GoString),
      ∃ hmN, blocks.foldlM (fun acc b => MapResource acc locals b.1 b.2) hm = .ok hmN ∧
        (anonymousList hmN).getD [] = (anonymousList hm).getD [] ++ blocks.map Prod.snd ∧
        ((anonymousList hmN).getD []).length
          = ((anonymousList hm).getD []).length + blocks.length) := by
  constructor
  · intro n l
    obtain ⟨hm', h, _, e⟩ := mapResource_locals_entry hm n l hwf
    exact ⟨hm', h, e⟩
  · intro blocks
    obtain ⟨hmN, h, e⟩ := mapResource_locals_fold blocks hm hwf
    exact ⟨hmN, h, e, by rw [e]; simp⟩

theorem mapResource_locals_appends_witness :
    WellFormed testHashMap ∧
    ∃ hm', MapResource testHashMap locals (str "") [str "3-line-1", str "3-line-2"] = .ok hm' ∧
      anonymousList hm' = some ([[str "1-line-1", str "1-line-2"],
        [str "2-line-1", str "2-line-2"]] ++ [[str "3-line-1", str "3-line-2"]]) :=
  ⟨wellFormed_testHashMap,
    (mapResource_locals_appends testHashMap wellFormed_testHashMap).1 (str "")
      [str "3-line-1", str "3-line-2"]⟩

/-- C10: on a well-formed registry (the empty one included), `MapResource`
succeeds for every type, name and lines, and the registry it returns has both
the key `"locals"` and the key of the type. -/
theorem mapResource_keys (hm : Registry) (t n : GoString) (l : List GoString)
    (hwf : WellFormed hm) :
    ∃ hm', MapResource hm t n l = .ok hm' ∧
      (mapIndex hm' locals).isSome = true ∧ (mapIndex hm' t).isSome = true := by
  by_cases ht : t = locals
  · subst ht
    refine ⟨_, mapResource_locals_eq hm n l hwf, ?_, ?_⟩ <;> simp [mapIndex_assign_self]
  · refine ⟨_, mapResource_named_eq hm t n l hwf ht, ?_, ?_⟩
    · rw [mapIndex_assign_ne _ _ _ _ (Ne.symm ht), mapIndex_ensureKey_ne _ _ _ _ (Ne.symm ht),
        mapIndex_ensureKey_self]
      rfl
    · simp [mapIndex_assign_self]

theorem mapResource_keys_witness :
    WellFormed ([] : Registry) ∧
    ∃ hm', MapResource [] (str "resources") (str "aws_vpc.this")
        [str "1-line-1", str "1-line-2"] = .ok hm' ∧
      (mapIndex hm' locals).isSome = true ∧ (mapIndex hm' (str "resources")).isSome = true :=
  ⟨wellFormed_nil,
    mapResource_keys [] (str "resources") (str "aws_vpc.this") [str "1-line-1", str "1-line-2"]
      wellFormed_nil⟩

/-! ## Counting brackets -/

theorem netDepth_nil : netDepth [] = 0 := by
  simp [netDepth, braceCount]

theorem netDepth_append (a b : List GoString) : netDepth (a ++ b) = netDepth a + netDepth b := by
  simp only [netDepth, braceCount, List.map_append, List.sum_append]
  push_cast
  ring

/-- The inner loop adds the net count of the line to the counter. -/
theorem countBrackets_eq (line : GoString) (d : Int) :
    countBrackets line d = d + netDepth [line] := by
  induction line generalizing d with
  | nil => simp [countBrackets, netDepth, braceCount]
  | cons c cs ih =>
    have step : countBrackets (c :: cs) d
        = countBrackets cs (if c = rbrace then (if c = lbrace then d + 1 else d) - 1
            else (if c = lbrace then d + 1 else d)) := rfl
    rw [step, ih]
    have hne : lbrace ≠ rbrace := by decide
    by_cases h1 : c = lbrace
    · subst h1
      simp [netDepth, braceCount, hne, List.count_cons]
      ring
    · by_cases h2 : c = rbrace
      · subst h2
        simp [netDepth, braceCount, Ne.symm hne, List.count_cons]
        ring
      · simp [netDepth, braceCount, h1, h2, List.count_cons]

theorem window_zero (lines : List GoString) (st : Nat) : window lines st 0 = [] := by
  simp [window]

theorem window_succ (lines : List GoString) (st m : Nat) (line : GoString)
    (h : lines[st + m]? = some line) :
    window lines st (m + 1) = window lines st m ++ [line] := by
  unfold window
  rw [List.take_succ, List.getElem?_drop, h]
  rfl

/-- Counting line `i` on top of the net count of lines `st..i-1`. -/
theorem countBrackets_window (lines : List GoString) (st i : Nat) (line : GoString)
    (hst : st ≤ i) (h : lines[i]? = some line) :
    countBrackets line (netDepth (window lines st (i - st)))
      = netDepth (window lines st (i + 1 - st)) := by
  have e : i + 1 - st = (i - st) + 1 := by omega
  have h' : lines[st + (i - st)]? = some line := by
    have : st + (i - st) = i := by omega
    rw [this]; exact h
  rw [countBrackets_eq, e, window_succ lines st (i - st) line h', netDepth_append]

/-! ## Chains of blocks -/

theorem lastEnd_append (p : Int) (bs : List Block) (b : Block) :
    lastEnd p (bs ++ [b]) = b.endLine := by
  induction bs generalizing p with
  | nil => rfl
  | cons a rest ih => exact ih a.endLine

theorem chain_append (lines : List GoString) (p : Int) (bs : List Block) (b : Block) :
    Chain lines p (bs ++ [b]) ↔ Chain lines p bs ∧ BlockOK lines (lastEnd p bs) b := by
  induction bs generalizing p with
  | nil => simp [Chain, lastEnd]
  | cons a rest ih =>
    show BlockOK lines p a ∧ Chain lines a.endLine (rest ++ [b]) ↔
      (BlockOK lines p a ∧ Chain lines a.endLine rest) ∧ BlockOK lines (lastEnd a.endLine rest) b
    rw [ih a.endLine]
    exact and_assoc.symm

theorem chain_split (lines : List GoString) (p : Int) (pre : List Block) (b : Block)
    (post : List Block) (h : Chain lines p (pre ++ b :: post)) :
    BlockOK lines (lastEnd p pre) b := by
  induction pre generalizing p with
  | nil => exact h.1
  | cons a rest ih => exact ih a.endLine h.2

theorem chain_mem (lines : List GoString) (p : Int) (bs : List Block) (b : Block)
    (h : Chain lines p bs) (hb : b ∈ bs) : ∃ q, BlockOK lines q b := by
  obtain ⟨pre, post, rfl⟩ := List.append_of_mem hb
  exact ⟨_, chain_split lines p pre b post h⟩

/-! ## One iteration of the scan -/

theorem contains_iff (line : GoString) (c : UInt8) :
    strings.Contains line c = true ↔ c ∈ line := by
  simp [strings.Contains]

/-- The three ways `openBlock` returns. -/
theorem openBlock_cases (line : GoString) (i : Nat) (s s1 : ScanState)
    (h : openBlock line i s = .ok s1) :
    (s.parsingResource = true ∧ s1 = s) ∨
    (s.parsingResource = false ∧ lbrace ∉ line ∧ s1 = s) ∨
    (s.parsingResource = false ∧ lbrace ∈ line ∧ ∃ t n, DetermineResource line = .ok (t, n) ∧
      s1 = { s with startLine := i, parsingResource := true,
                    resourceType := t, resourceName := n }) := by
  unfold openBlock at h
  cases hp : s.parsingResource with
  | true =>
    rw [hp] at h
    left
    cases h
    exact ⟨rfl, rfl⟩
  | false =>
    rw [hp] at h
    right
    by_cases hc : strings.Contains line lbrace = true
    · right
      simp only [Bool.not_false, if_true, hc] at h
      refine ⟨rfl, (contains_iff line lbrace).1 hc, ?_⟩
      cases hd : DetermineResource line with
      | error f => rw [hd] at h; cases h
      | ok r =>
        obtain ⟨t, n⟩ := r
        rw [hd] at h
        cases h
        exact ⟨t, n, rfl, rfl⟩
    · left
      have hc' : strings.Contains line lbrace = false := by simpa using hc
      simp only [Bool.not_false, if_true, hc'] at h
      cases h
      exact ⟨rfl, fun hm => hc ((contains_iff line lbrace).2 hm), rfl⟩

/-- The two ways `closeBlock` returns. -/
theorem closeBlock_cases (lines : List GoString) (i : Nat) (line : GoString) (s1 s' : ScanState)
    (h : closeBlock lines i line s1 = .ok s') :
    (countBrackets line s1.bracketValue ≠ 0 ∧
      s' = { s1 with bracketValue := countBrackets line s1.bracketValue }) ∨
    (countBrackets line s1.bracketValue = 0 ∧ ∃ blockLines hm,
      slice lines s1.startLine ((i : Int) + 1) = .ok blockLines ∧
      MapResource s1.resourceHashMap s1.resourceType s1.resourceName blockLines = .ok hm ∧
      s' = { parsingResource := false, resourceType := s1.resourceType,
             resourceName := s1.resourceName, startLine := -1, endLine := -1,
             bracketValue := countBrackets line s1.bracketValue, resourceHashMap := hm,
             emitted := s1.emitted ++
               [{ blockType := s1.resourceType, blockName := s1.resourceName,
                  startLine := s1.startLine, endLine := i, lines := blockLines }] }) := by
  unfold closeBlock at h
  by_cases hd : countBrackets line s1.bracketValue = 0
  · right
    simp only [hd, if_true] at h
    refine ⟨hd, ?_⟩
    cases hs : slice lines s1.startLine ((i : Int) + 1) with
    | error f => rw [hs] at h; cases h
    | ok blockLines =>
      rw [hs, ok_bind] at h
      cases hm : MapResource s1.resourceHashMap s1.resourceType s1.resourceName blockLines with
      | error f => simp only [hm] at h; cases h
      | ok hm' =>
        simp only [hm] at h
        cases h
        exact ⟨blockLines, hm', rfl, hm, by rw [hd]⟩
  · left
    simp only [hd, if_false] at h
    cases h
    exact ⟨hd, rfl⟩

theorem lt_length_of_getElem? {α : Type} (l : List α) (i : Nat) (a : α)
    (h : l[i]? = some a) : i < l.length := by
  by_contra hn
  rw [List.getElem?_eq_none (by omega)] at h
  cases h

/-- The slice `lines[st : i+1]` is the window of `i + 1 - st` lines from `st`. -/
theorem slice_window (lines : List GoString) (st i : Nat) (hst : st ≤ i)
    (hi : i < lines.length) :
    slice lines (st : Int) ((i : Int) + 1) = .ok (window lines st (i + 1 - st)) := by
  unfold slice window
  have hc : (0 : Int) ≤ (st : Int) ∧ (st : Int) ≤ (i : Int) + 1 ∧
      (i : Int) + 1 ≤ (lines.length : Int) := by omega
  rw [if_pos hc]
  have e1 : ((st : Int)).toNat = st := by omega
  have e2 : ((i : Int) + 1 - (st : Int)).toNat = i + 1 - st := by omega
  rw [e1, e2]

/-- Counting line `i` of an open block re-establishes the invariant at `i + 1`. -/
theorem inv_close (lines : List GoString) (i : Nat) (line : GoString) (s1 s' : ScanState)
    (hl : lines[i]? = some line) (hwf : WellFormed s1.resourceHashMap)
    (hchain : Chain lines (-1) s1.emitted) (hlast : lastEnd (-1) s1.emitted < i)
    (hp : s1.parsingResource = true) (hbusy : Busy lines i s1)
    (h : closeBlock lines i line s1 = .ok s') : Inv lines (i + 1) s' := by
  obtain ⟨st, hst, hlt, hle, hopen, hgap, hdepth, hnz⟩ := hbusy
  have hi : i < lines.length := lt_length_of_getElem? lines i line hl
  have hcount : countBrackets line s1.bracketValue = netDepth (window lines st (i + 1 - st)) := by
    rw [hdepth]
    exact countBrackets_window lines st i line hle hl
  rcases closeBlock_cases lines i line s1 s' h with ⟨hd, rfl⟩ | ⟨hd, blockLines, hm, hs, hmr, rfl⟩
  · refine ⟨hwf, hchain, ?_, ?_, ?_⟩
    · show lastEnd (-1) s1.emitted < ((i + 1 : Nat) : Int)
      omega
    · intro hf
      have : s1.parsingResource = false := hf
      rw [hp] at this
      cases this
    · intro _
      refine ⟨st, hst, hlt, by omega, hopen, hgap, ?_, ?_⟩
      · show countBrackets line s1.bracketValue = netDepth (window lines st (i + 1 - st))
        exact hcount
      · intro m hm0 hm1
        by_cases hm2 : m ≤ i - st
        · exact hnz m hm0 hm2
        · have : m = i + 1 - st := by omega
          rw [this, ← hcount]
          exact hd
  · rw [hst, slice_window lines st i hle hi] at hs
    cases hs
    obtain ⟨hm', hmr', hwf'⟩ := mapResource_wellFormed s1.resourceHashMap s1.resourceType
      s1.resourceName (window lines st (i + 1 - st)) hwf
    rw [hmr] at hmr'
    cases hmr'
    obtain ⟨l0, hl0, hb0, hd0⟩ := hopen
    refine ⟨hwf', ?_, ?_, ?_, ?_⟩
    · show Chain lines (-1) (s1.emitted ++ _)
      rw [chain_append]
      refine ⟨hchain, st, i, hst, rfl, hlt, hle, hi, rfl, ⟨l0, hl0, hb0, hd0⟩, hgap, ?_, ?_⟩
      · rw [← hcount]; exact hd
      · intro m hm0 hm1
        exact hnz m hm0 (by omega)
    · show lastEnd (-1) (s1.emitted ++ _) < ((i + 1 : Nat) : Int)
      rw [lastEnd_append]
      show (i : Int) < ((i + 1 : Nat) : Int)
      omega
    · intro _
      refine ⟨hd, ?_⟩
      intro j hj1 hj2
      have hj1' : lastEnd (-1) (s1.emitted ++
          [{ blockType := s1.resourceType, blockName := s1.resourceName,
             startLine := s1.startLine, endLine := (i : Int),
             lines := window lines st (i + 1 - st) }]) < (j : Int) := hj1
      rw [lastEnd_append] at hj1'
      have : (i : Int) < (j : Int) := hj1'
      omega
    · intro hf
      cases hf

/-- One iteration of the loop re-establishes the invariant at the next index. -/
theorem inv_step (lines : List GoString) (i : Nat) (s s' : ScanState)
    (hinv : Inv lines i s) (h : loopBody lines i s = .ok s') : Inv lines (i + 1) s' := by
  unfold loopBody at h
  cases hl : lines[i]? with
  | none =>
    have : index lines i = .error Fault.indexRange := by simp [index, hl]
    rw [this] at h
    cases h
  | some line =>
    have hidx : index lines i = .ok line := by simp [index, hl]
    rw [hidx, ok_bind] at h
    cases ho : openBlock line i s with
    | error f => rw [ho] at h; cases h
    | ok s1 =>
      rw [ho, ok_bind] at h
      rcases openBlock_cases line i s s1 ho with ⟨hp, rfl⟩ | ⟨hp, hnb, rfl⟩ |
        ⟨hp, hb, t, n, hd, rfl⟩
      · simp only [hp, Bool.not_true] at h
        exact inv_close lines i line s1 s' hl hinv.wf hinv.chain hinv.last_lt hp (hinv.busy hp) h
      · simp only [hp, Bool.not_false, if_true] at h
        cases h
        obtain ⟨hz, hgap⟩ := hinv.idle hp
        refine ⟨hinv.wf, hinv.chain, ?_, ?_, ?_⟩
        · have := hinv.last_lt
          push_cast
          omega
        · intro _
          refine ⟨hz, ?_⟩
          intro j hj1 hj2 l0 hl0
          by_cases hji : j < i
          · exact hgap j hj1 hji l0 hl0
          · have : j = i := by omega
            subst this
            rw [hl] at hl0
            cases hl0
            exact hnb
        · intro ht
          rw [hp] at ht
          cases ht
      · obtain ⟨hz, hgap⟩ := hinv.idle hp
        have h' : closeBlock lines i line
            { s with startLine := i, parsingResource := true,
                     resourceType := t, resourceName := n } = .ok s' := h
        refine inv_close lines i line
          { s with startLine := i, parsingResource := true,
                   resourceType := t, resourceName := n }
          s' hl hinv.wf hinv.chain hinv.last_lt rfl ?_ h'
        refine ⟨i, rfl, hinv.last_lt, le_refl i, ⟨line, hl, hb, hd⟩, hgap, ?_, ?_⟩
        · show s.bracketValue = netDepth (window lines i (i - i))
          rw [hz, Nat.sub_self, window_zero, netDepth_nil]
        · intro m hm0 hm1
          omega

/-! ## The whole scan -/

theorem inv_init (lines : List GoString) : Inv lines 0 initState := by
  refine ⟨wellFormed_nil, trivial, by decide, ?_, ?_⟩
  · intro _
    refine ⟨rfl, ?_⟩
    intro j hj1 hj2
    omega
  · intro h
    cases h

/-- The state in which the loop stops satisfies the invariant at some index. -/
theorem scanLoop_inv (lines : List GoString) (n i : Nat) (s : ScanState)
    (hinv : Inv lines i s) : ∃ j, Inv lines j (scanLoop lines n i s).1 := by
  induction n generalizing i s with
  | zero => exact ⟨i, hinv⟩
  | succ n ih =>
    unfold scanLoop
    cases h : loopBody lines i s with
    | error f => exact ⟨i, hinv⟩
    | ok s' => exact ih (i + 1) s' (inv_step lines i s s' hinv h)

/-- The emitted blocks form a chain from the start of the input. -/
theorem emitted_chain (lines : List GoString) : Chain lines (-1) (emittedBlocks lines) := by
  obtain ⟨j, hj⟩ := scanLoop_inv lines lines.length 0 initState (inv_init lines)
  exact hj.chain

/-- Bounds, order and subsequence property of a chain of blocks. -/
theorem chain_bounds (lines : List GoString) (p : Int) (bs : List Block)
    (h : Chain lines p bs) :
    (∀ b ∈ bs, p < b.startLine ∧ b.startLine ≤ b.endLine ∧ b.endLine < lines.length) ∧
    bs.Pairwise (fun a b => a.endLine < b.startLine) ∧
    (bs.flatMap Block.lines).Sublist (lines.drop (p + 1).toNat) := by
  induction bs generalizing p with
  | nil => simp
  | cons b rest ih =>
    obtain ⟨⟨st, en, hst, hen, hp, hle, hlen, hlines, -, -, -, -⟩, hrest⟩ := h
    obtain ⟨hb, hpw, hsub⟩ := ih b.endLine hrest
    refine ⟨?_, ?_, ?_⟩
    · intro b' hb'
      rcases List.mem_cons.1 hb' with rfl | hb'
      · rw [hst, hen]
        omega
      · have := hb b' hb'
        omega
    · rw [List.pairwise_cons]
      exact ⟨fun b' hb' => (hb b' hb').1, hpw⟩
    · have e1 : (b.endLine + 1).toNat = st + (en + 1 - st) := by omega
      have e2 : lines.drop st = b.lines ++ lines.drop (b.endLine + 1).toNat := by
        rw [hlines, e1, ← List.drop_drop, window, List.take_append_drop]
      have h1 : (b.lines ++ rest.flatMap Block.lines).Sublist (lines.drop st) := by
        rw [e2]
        exact List.Sublist.append (List.Sublist.refl _) hsub
      have h2 : (lines.drop st).Sublist (lines.drop (p + 1).toNat) :=
        List.drop_sublist_drop_left lines (by omega)
      simpa using h1.trans h2

/-! ## The emitted blocks -/

/-- C5: for every input and every block emitted by `RetrieveResourceBlocks`,
with line range `[start, end]`: the lines `start..end` hold as many `'{'` as
`'}'`, and for every `e` with `start <= e < end` the net count of the lines
`start..e` is not 0. -/
theorem emitted_block_balanced (lines : List GoString) (b : Block)
    (hb : b ∈ emittedBlocks lines) :
    braceCount lbrace (lineRange lines b.startLine b.endLine)
      = braceCount rbrace (lineRange lines b.startLine b.endLine) ∧
    ∀ e : Int, b.startLine ≤ e → e < b.endLine →
      netDepth (lineRange lines b.startLine e) ≠ 0 := by
  obtain ⟨q, st, en, hst, hen, -, hle, -, -, -, -, hz, hnz⟩ :=
    chain_mem lines (-1) (emittedBlocks lines) b (emitted_chain lines) hb
  constructor
  · have e1 : lineRange lines b.startLine b.endLine = window lines st (en + 1 - st) := by
      unfold lineRange
      rw [hst, hen]
      have a1 : ((st : Int)).toNat = st := by omega
      have a2 : ((en : Int) + 1 - (st : Int)).toNat = en + 1 - st := by omega
      rw [a1, a2]
    rw [e1]
    unfold netDepth at hz
    omega
  · intro e he1 he2
    have e1 : lineRange lines b.startLine e = window lines st (e + 1 - (st : Int)).toNat := by
      unfold lineRange
      rw [hst]
      have a1 : ((st : Int)).toNat = st := by omega
      rw [a1]
    rw [e1]
    rw [hst] at he1
    rw [hen] at he2
    exact hnz _ (by omega) (by omega)

theorem emitted_block_balanced_witness :
    sampleLocals ∈ emittedBlocks sampleLines ∧
    braceCount lbrace (lineRange sampleLines sampleLocals.startLine sampleLocals.endLine)
      = braceCount rbrace (lineRange sampleLines sampleLocals.startLine sampleLocals.endLine) ∧
    ∀ e : Int, sampleLocals.startLine ≤ e → e < sampleLocals.endLine →
      netDepth (lineRange sampleLines sampleLocals.startLine e) ≠ 0 :=
  ⟨by decide, emitted_block_balanced sampleLines sampleLocals (by decide)⟩

/-- C6: for every input, the line ranges of the emitted blocks lie inside the
input with `start <= end`, every block ends before any later block starts, and
the concatenation of the blocks' lines, in emission order, is a subsequence of
the input. -/
theorem emitted_ranges_ordered (lines : List GoString) :
    (∀ b ∈ emittedBlocks lines,
      0 ≤ b.startLine ∧ b.startLine ≤ b.endLine ∧ b.endLine < lines.length) ∧
    (emittedBlocks lines).Pairwise (fun a b => a.endLine < b.startLine) ∧
    ((emittedBlocks lines).flatMap Block.lines).Sublist lines := by
  obtain ⟨hb, hpw, hsub⟩ := chain_bounds lines (-1) (emittedBlocks lines) (emitted_chain lines)
  refine ⟨?_, hpw, by simpa using hsub⟩
  intro b hbm
  have := hb b hbm
  omega

/-- C7: for every input, a block emitted after the blocks `pre` opens at the
first line after the end of the last block of `pre` (after the start of the
input when `pre` is empty) that contains `'{'`, has the type and name that
`DetermineResource` gives for that line, and stores exactly the
`end - start + 1` input lines from its opening line to its closing line. -/
theorem emitted_block_contents (lines : List GoString) (pre : List Block) (b : Block)
    (post : List Block) (h : emittedBlocks lines = pre ++ b :: post) :
    ∃ st en : Nat, b.startLine = st ∧ b.endLine = en ∧
      lastEnd (-1) pre < st ∧ st ≤ en ∧ en < lines.length ∧
      b.lines = window lines st (en - st + 1) ∧ b.lines.length = en - st + 1 ∧
      (∃ line, lines[st]? = some line ∧ lbrace ∈ line ∧
        DetermineResource line = .ok (b.blockType, b.blockName)) ∧
      (∀ j : Nat, lastEnd (-1) pre < j → j < st → ∀ line, lines[j]? = some line →
        lbrace ∉ line) := by
  have hc := emitted_chain lines
  rw [h] at hc
  obtain ⟨st, en, hst, hen, hp, hle, hlen, hlines, hopen, hgap, -, -⟩ :=
    chain_split lines (-1) pre b post hc
  have e : en + 1 - st = en - st + 1 := by omega
  rw [e] at hlines
  refine ⟨st, en, hst, hen, hp, hle, hlen, hlines, ?_, hopen, hgap⟩
  rw [hlines]
  simp only [window, List.length_take, List.length_drop]
  omega

theorem emitted_block_contents_witness :
    emittedBlocks sampleLines = [sampleLocals] ++ sampleVpc :: [] ∧
    ∃ st en : Nat, sampleVpc.startLine = st ∧ sampleVpc.endLine = en ∧
      lastEnd (-1) [sampleLocals] < st ∧ st ≤ en ∧ en < sampleLines.length ∧
      sampleVpc.lines = window sampleLines st (en - st + 1) ∧
      sampleVpc.lines.length = en - st + 1 ∧
      (∃ line, sampleLines[st]? = some line ∧ lbrace ∈ line ∧
        DetermineResource line = .ok (sampleVpc.blockType, sampleVpc.blockName)) ∧
      (∀ j : Nat, lastEnd (-1) [sampleLocals] < j → j < st →
        ∀ line, sampleLines[j]? = some line → lbrace ∉ line) :=
  ⟨by decide, emitted_block_contents sampleLines [sampleLocals] sampleVpc [] (by decide)⟩

/-! ## Lines that open no block -/

/-- Outside a block, a line without `'{'` leaves the state as it is. -/
theorem loopBody_skip (lines : List GoString) (i : Nat) (line : GoString) (s : ScanState)
    (hl : lines[i]? = some line) (hp : s.parsingResource = false) (hb : lbrace ∉ line) :
    loopBody lines i s = .ok s := by
  have hidx : index lines i = .ok line := by simp [index, hl]
  have hc : strings.Contains line lbrace = false := by
    cases h : strings.Contains line lbrace with
    | false => rfl
    | true => exact absurd ((contains_iff line lbrace).1 h) hb
  have ho : openBlock line i s = .ok s := by
    unfold openBlock
    simp [hp, hc]
    rfl
  unfold loopBody
  rw [hidx, ok_bind, ho, ok_bind]
  simp [hp]
  rfl

/-- Outside a block, a run of lines without `'{'` leaves the state as it is. -/
theorem scanLoop_skip (lines : List GoString) (n i : Nat) (s : ScanState)
    (hp : s.parsingResource = false) (hn : i + n ≤ lines.length)
    (hb : ∀ j line, i ≤ j → j < i + n → lines[j]? = some line → lbrace ∉ line) :
    scanLoop lines n i s = (s, none) := by
  induction n generalizing i with
  | zero => rfl
  | succ n ih =>
    have hi : i < lines.length := by omega
    have hl : lines[i]? = some lines[i] := List.getElem?_eq_getElem hi
    unfold scanLoop
    rw [loopBody_skip lines i lines[i] s hl hp (hb i _ (le_refl i) (by omega) hl)]
    exact ih (i + 1) (by omega) (fun j line h1 h2 => hb j line (by omega) (by omega))

/-- C11: on an input in which no line contains `'{'`, `RetrieveResourceBlocks`
emits no block and returns the empty registry. -/
theorem retrieveResourceBlocks_no_brace (lines : List GoString)
    (h : ∀ line ∈ lines, lbrace ∉ line) :
    emittedBlocks lines = [] ∧ RetrieveResourceBlocks lines = .ok [] := by
  have hs : scan lines = (initState, none) :=
    scanLoop_skip lines lines.length 0 initState rfl (by omega)
      (fun j line _ _ hl => h line (List.getElem?_mem hl))
  constructor
  · unfold emittedBlocks
    rw [hs]
    rfl
  · unfold RetrieveResourceBlocks
    rw [hs]
    rfl

theorem retrieveResourceBlocks_no_brace_witness :
    (∀ line ∈ [str "# a comment", str "", str "x = 1 \x7d"], lbrace ∉ line) ∧
    emittedBlocks [str "# a comment", str "", str "x = 1 \x7d"] = [] ∧
    RetrieveResourceBlocks [str "# a comment", str "", str "x = 1 \x7d"] = .ok [] :=
  ⟨by decide, retrieveResourceBlocks_no_brace _ (by decide)⟩

/-- C13: on the two-line input `locals { a = 1 }`, `resource "x" "y" { z = 2 }`
the registry returned has an anonymous list with exactly one entry, the one-line
list holding the first line, and a `resource` mapping with exactly one key,
`x.y`, mapped to the one-line list holding the second line. -/
theorem retrieveResourceBlocks_end_to_end :
    ∃ hm, RetrieveResourceBlocks
        [str "locals \x7b a = 1 \x7d", str "resource \"x\" \"y\" \x7b z = 2 \x7d"] = .ok hm ∧
      anonymousList hm = some [[str "locals \x7b a = 1 \x7d"]] ∧
      mapIndex hm (str "resource")
        = some (Value.nameMap [(str "x.y", [str "resource \"x\" \"y\" \x7b z = 2 \x7d"])]) :=
  ⟨[(str "locals", Value.blockList [[str "locals \x7b a = 1 \x7d"]]),
    (str "resource",
      Value.nameMap [(str "x.y", [str "resource \"x\" \"y\" \x7b z = 2 \x7d"])])],
   by decide, by decide, by decide⟩

/-! ## The extension check -/

theorem hasSuffix_iff (s suffix : GoString) :
    strings.HasSuffix s suffix = true ↔ List.IsSuffix suffix s := by
  unfold strings.HasSuffix
  constructor
  · intro h
    simp only [Bool.and_eq_true, decide_eq_true_eq, beq_iff_eq] at h
    rw [← h.2]
    exact List.drop_suffix _ s
  · rintro ⟨t, rfl⟩
    simp

/-- C15: `CheckValidExtension(f)` is true exactly when `f` ends with `.tf`; it
is a function of `f` alone, true on `test.tf` and false on `test.txt`. -/
theorem checkValidExtension_iff :
    (∀ f : GoString, CheckValidExtension f = true ↔ List.IsSuffix (str ".tf") f) ∧
    CheckValidExtension (str "test.tf") = true ∧
    CheckValidExtension (str "test.txt") = false := by
  refine ⟨?_, by decide, by decide⟩
  intro f
  rw [← hasSuffix_iff]
  unfold CheckValidExtension
  cases strings.HasSuffix f (str ".tf") <;> simp

/-! ## DetermineResource against the classification rule -/

/-- The model of `strings.Split` agrees with the library split on a byte. -/
theorem split_eq_splitOn (s : GoString) (sep : UInt8) :
    strings.Split s sep = s.splitOn sep := by
  unfold List.splitOn
  induction s with
  | nil => simp [strings.Split]
  | cons c cs ih =>
    rw [List.splitOnP_cons]
    by_cases h : c = sep
    · simp [strings.Split, h, ih]
    · have hne := List.splitOnP_ne_nil (fun x => x == sep) cs
      simp only [strings.Split, h, if_false, ih]
      cases hs : List.splitOnP (fun x => x == sep) cs with
      | nil => exact absurd hs hne
      | cons p ps => simp [List.modifyHead, h]

theorem replaceAll_eq_filter (s : GoString) (old : UInt8) :
    strings.ReplaceAll s old [] = s.filter (fun c => c ≠ old) := by
  induction s with
  | nil => rfl
  | cons c cs ih =>
    have e : strings.ReplaceAll (c :: cs) old []
        = (if c = old then [] else [c]) ++ strings.ReplaceAll cs old [] := by
      simp [strings.ReplaceAll]
    rw [e, ih]
    by_cases h : c = old <;> simp [h]

/-- Removing a byte other than the separator before or after joining gives the
same string. -/
theorem filter_intercalate (ps : List GoString) (sep old : UInt8) (h : sep ≠ old) :
    ([sep].intercalate ps).filter (fun c => c ≠ old)
      = [sep].intercalate (ps.map (fun piece => piece.filter (fun c => c ≠ old))) := by
  induction ps with
  | nil => simp [List.intercalate]
  | cons a rest ih =>
    cases rest with
    | nil => simp [List.intercalate]
    | cons b rest =>
      have e1 : [sep].intercalate (a :: b :: rest) = a ++ [sep] ++ [sep].intercalate (b :: rest) := by
        simp [List.intercalate]
      have e2 : [sep].intercalate ((a :: b :: rest).map (fun piece => piece.filter (fun c => c ≠ old)))
          = a.filter (fun c => c ≠ old) ++ [sep]
            ++ [sep].intercalate ((b :: rest).map (fun piece => piece.filter (fun c => c ≠ old))) := by
        simp [List.intercalate]
      rw [e1, e2, List.filter_append, List.filter_append, ih]
      simp [h]

/-- The part of `DetermineResource` after the header is found. -/
theorem determineResource_of_header (line header : GoString)
    (h : (lastBrace line line.length = none ∧ header = []) ∨
      ∃ i : Nat, lastBrace line line.length = some i ∧
        slice line 0 ((i : Int) - 1) = .ok header) :
    DetermineResource line = .ok (classifySpec header) := by
  have key : (do
      let parts := strings.Split header space
      let resourceType ← index parts 0
      let resourceName ←
        if parts.length > 1 then do
          let rest ← slice parts 1 parts.length
          pure (strings.ReplaceAll (strings.Join rest [dot]) dquote [])
        else pure []
      pure (resourceType, resourceName) : Except Fault (GoString × GoString))
      = .ok (classifySpec header) := by
    unfold classifySpec
    rw [split_eq_splitOn]
    have hne : header.splitOn space ≠ [] := by
      unfold List.splitOn
      exact List.splitOnP_ne_nil _ _
    cases hs : header.splitOn space with
    | nil => exact absurd hs hne
    | cons p ps =>
      have hi : index (p :: ps) 0 = .ok p := by simp [index]
      simp only []
      rw [hi, ok_bind]
      cases ps with
      | nil => rfl
      | cons q qs =>
        have hlen : (p :: q :: qs).length > 1 := by simp
        have hsl : slice (p :: q :: qs) 1 (((p :: q :: qs).length : Nat) : Int)
            = .ok (q :: qs) := by
          simp [slice]
          omega
        have hnot : ¬ (p :: q :: qs).length ≤ 1 := by simp
        rw [if_pos hlen, hsl, ok_bind]
        simp only [List.headD_cons, if_neg hnot, List.drop_one, List.tail_cons]
        rw [← filter_intercalate (q :: qs) dot dquote (by decide), ← replaceAll_eq_filter]
        rfl
  unfold DetermineResource
  rcases h with ⟨hn, rfl⟩ | ⟨i, hi, hs⟩
  · rw [hn]
    exact key
  · rw [hi]
    simp only []
    rw [hs, ok_bind]
    exact key

/-- The backward loop finds the rightmost `'{'`. -/
theorem lastBrace_rightmost (pre post : GoString) (h : lbrace ∉ post) (n : Nat) :
    lastBrace (pre ++ lbrace :: post) (pre.length + 1 + n) = some pre.length := by
  induction n with
  | zero =>
    have e : (pre ++ lbrace :: post)[pre.length]? = some lbrace := by
      rw [List.getElem?_append_right (le_refl _)]
      simp
    show lastBrace (pre ++ lbrace :: post) (pre.length + 1) = some pre.length
    rw [lastBrace, if_pos e]
  | succ n ih =>
    have e : (pre ++ lbrace :: post)[pre.length + 1 + n]? ≠ some lbrace := by
      intro e
      rw [List.getElem?_append_right (by omega)] at e
      have : pre.length + 1 + n - pre.length = n + 1 := by omega
      rw [this, List.getElem?_cons_succ] at e
      exact h (List.getElem?_mem e)
    show lastBrace (pre ++ lbrace :: post) ((pre.length + 1 + n) + 1) = some pre.length
    rw [lastBrace, if_neg e, ih]

theorem lastBrace_absent (line : GoString) (h : lbrace ∉ line) (n : Nat) :
    lastBrace line n = none := by
  induction n with
  | zero => rfl
  | succ n ih =>
    have e : (line)[n]? ≠ some lbrace := fun e => h (List.getElem?_mem e)
    rw [lastBrace, if_neg e, ih]

/-- C16: for a line whose rightmost `'{'` is at index `i >= 1`, with the header
being the first `i - 1` bytes of the line, `DetermineResource` returns the
classification of the header by the rule of the specification (first piece of
the split on single spaces; other pieces stripped of double quotes and joined
with `.`, or the empty name when there is one piece); stripping the quotes
before or after joining gives the same name; and for a line without `'{'` it
returns an empty type and an empty name. -/
theorem determineResource_spec :
    (∀ pre post : GoString, pre ≠ [] → lbrace ∉ post →
      DetermineResource (pre ++ lbrace :: post)
        = .ok (classifySpec ((pre ++ lbrace :: post).take (pre.length - 1)))) ∧
    (∀ pieces : List GoString,
      [dot].intercalate (pieces.map (fun piece => piece.filter (fun c => c ≠ dquote)))
        = ([dot].intercalate pieces).filter (fun c => c ≠ dquote)) ∧
    (∀ line : GoString, lbrace ∉ line → DetermineResource line = .ok ([], [])) := by
  refine ⟨?_, ?_, ?_⟩
  · intro pre post hpre hpost
    apply determineResource_of_header
    right
    have hlen : (pre ++ lbrace :: post).length = pre.length + 1 + post.length := by
      simp; omega
    refine ⟨pre.length, by rw [hlen, lastBrace_rightmost pre post hpost], ?_⟩
    have hpos : 0 < pre.length := List.length_pos.2 hpre
    unfold slice
    have hc : (0 : Int) ≤ 0 ∧ (0 : Int) ≤ (pre.length : Int) - 1 ∧
        (pre.length : Int) - 1 ≤ ((pre ++ lbrace :: post).length : Int) := by
      rw [hlen]; omega
    rw [if_pos hc]
    have e : ((pre.length : Int) - 1 - 0).toNat = pre.length - 1 := by omega
    rw [e]
    rfl
  · intro pieces
    exact (filter_intercalate pieces dot dquote (by decide)).symm
  · intro line hline
    exact determineResource_of_header line [] (Or.inl ⟨lastBrace_absent line hline _, rfl⟩)

/-! ## The extracted text -/

theorem foldl_lines (b : List GoString) (file : GoString) :
    b.foldl (fun file line => file ++ (line ++ [newline])) file
      = file ++ b.flatMap (fun line => line ++ [newline]) := by
  induction b generalizing file with
  | nil => simp
  | cons line rest ih => simp [List.foldl_cons, ih, List.flatMap_cons]

theorem foldl_entries (blocks : List (List GoString)) (file : GoString) :
    blocks.foldl (fun file localLines =>
        (localLines.foldl (fun file line => file ++ (line ++ [newline])) file) ++ [newline]) file
      = file ++ blocks.flatMap entryText := by
  induction blocks generalizing file with
  | nil => simp
  | cons b rest ih =>
    rw [List.foldl_cons, ih, foldl_lines, List.flatMap_cons]
    simp [entryText]

/-- C14 as stated fails: for the two anonymous entries of the test registry the
code writes a blank line after the second entry too, not only between the two. -/
theorem extract_not_separated :
    anonymousList testHashMap
      = some [[str "1-line-1", str "1-line-2"], [str "2-line-1", str "2-line-2"]] ∧
    extractTextSpec [[str "1-line-1", str "1-line-2"], [str "2-line-1", str "2-line-2"]]
      = str "1-line-1\n1-line-2\n\n2-line-1\n2-line-2\n" ∧
    ExtractResourcesToFile testHashMap locals
      = .ok (str "1-line-1\n1-line-2\n\n2-line-1\n2-line-2\n\n") ∧
    ExtractResourcesToFile testHashMap locals
      ≠ .ok (extractTextSpec
          [[str "1-line-1", str "1-line-2"], [str "2-line-1", str "2-line-2"]]) := by
  refine ⟨by decide, by decide, by decide, by decide⟩

/-- C14, amended: for every registry whose anonymous list is `blocks`, the text
written for `"locals"` is, for each entry in order, every line of the entry
followed by a newline and then one blank line, after the last entry too. -/
theorem extract_text (hm : Registry) (blocks : List (List GoString))
    (h : anonymousList hm = some blocks) :
    ExtractResourcesToFile hm locals = .ok (blocks.flatMap entryText) := by
  unfold anonymousList at h
  unfold ExtractResourcesToFile
  rw [if_pos rfl]
  cases hv : mapIndex hm locals with
  | none => rw [hv] at h; cases h
  | some v =>
    rw [hv] at h
    cases v with
    | blockList l =>
      cases h
      simp only []
      rw [foldl_entries]
      rfl
    | nameMap m => cases h
    | other => cases h

theorem extract_text_witness :
    anonymousList testHashMap
      = some [[str "1-line-1", str "1-line-2"], [str "2-line-1", str "2-line-2"]] ∧
    ExtractResourcesToFile testHashMap locals
      = .ok ([[str "1-line-1", str "1-line-2"], [str "2-line-1", str "2-line-2"]].flatMap
          entryText) :=
  ⟨by decide, extract_text testHashMap _ (by decide)⟩

/-! ## The running depth inside a block -/

theorem charDepth_flatten (ls : List GoString) : charDepth ls.flatten = netDepth ls := by
  simp [charDepth, netDepth, braceCount, List.count_flatten]

/-- C17 as stated fails: the one-line block `} {` is emitted, and after its
first byte the running depth is `-1`. -/
theorem running_depth_negative :
    closeFirstBlock ∈ emittedBlocks closeFirstLines ∧
    List.IsPrefix (str "\x7d") closeFirstBlock.lines.flatten ∧
    charDepth (str "\x7d") = -1 := by
  refine ⟨by decide, ⟨str " \x7b", by decide⟩, by decide⟩

/-- C17, amended: for every input and every emitted block, the running depth
counted byte by byte over the block's lines is 0 after the last byte of the
block and is not 0 at the end of any earlier line of the block. -/
theorem running_depth_line_ends (lines : List GoString) (b : Block)
    (hb : b ∈ emittedBlocks lines) :
    charDepth b.lines.flatten = 0 ∧
    ∀ k : Nat, 0 < k → k < b.lines.length → charDepth (b.lines.take k).flatten ≠ 0 := by
  obtain ⟨q, st, en, -, -, -, hle, hlen, hlines, -, -, hz, hnz⟩ :=
    chain_mem lines (-1) (emittedBlocks lines) b (emitted_chain lines) hb
  have hl : b.lines.length = en + 1 - st := by
    rw [hlines]
    simp only [window, List.length_take, List.length_drop]
    omega
  constructor
  · rw [charDepth_flatten, hlines]
    exact hz
  · intro k hk0 hk1
    rw [charDepth_flatten]
    have e : b.lines.take k = window lines st k := by
      rw [hlines]
      unfold window
      rw [List.take_take]
      congr 1
      omega
    rw [e]
    exact hnz k hk0 (by omega)

theorem running_depth_line_ends_witness :
    sampleLocals ∈ emittedBlocks sampleLines ∧
    charDepth sampleLocals.lines.flatten = 0 ∧
    ∀ k : Nat, 0 < k → k < sampleLocals.lines.length →
      charDepth (sampleLocals.lines.take k).flatten ≠ 0 :=
  ⟨by decide, running_depth_line_ends sampleLines sampleLocals (by decide)⟩

/-! ## More on MapResource -/

theorem mapIndex_none_not_mem {V : Type} (m : GoMap V) (k : GoString)
    (h : mapIndex m k = none) (v : V) : (k, v) ∉ m := by
  induction m with
  | nil => simp
  | cons p rest ih =>
    obtain ⟨k', v'⟩ := p
    by_cases e : k' = k
    · simp [mapIndex, e] at h
    · simp only [mapIndex, e, if_false] at h
      intro hm
      rcases List.mem_cons.1 hm with hp | hp
      · cases hp
        exact e rfl
      · exact ih h hp

theorem mapIndex_of_mem_keys {V : Type} (m : GoMap V) (k : GoString)
    (h : k ∈ m.map Prod.fst) : ∃ v, mapIndex m k = some v := by
  induction m with
  | nil => simp at h
  | cons p rest ih =>
    obtain ⟨k', v'⟩ := p
    by_cases e : k' = k
    · exact ⟨v', by simp [mapIndex, e]⟩
    · have : k ∈ rest.map Prod.fst := by
        simp only [List.map_cons, List.mem_cons] at h
        rcases h with h | h
        · exact absurd h.symm e
        · exact h
      obtain ⟨v, hv⟩ := ih this
      exact ⟨v, by simp [mapIndex, e, hv]⟩

theorem mapAssign_absent {V : Type} (m : GoMap V) (k : GoString) (v : V)
    (h : mapIndex m k = none) : mapAssign m k v = m ++ [(k, v)] := by
  induction m with
  | nil => rfl
  | cons p rest ih =>
    obtain ⟨k', v'⟩ := p
    by_cases e : k' = k
    · simp [mapIndex, e] at h
    · simp only [mapIndex, e, if_false] at h
      simp [mapAssign, e, ih h]

theorem mapAssign_append_self {V : Type} (m : GoMap V) (k : GoString) (v v' : V)
    (h : mapIndex m k = none) : mapAssign (m ++ [(k, v)]) k v' = m ++ [(k, v')] := by
  induction m with
  | nil => simp [mapAssign]
  | cons p rest ih =>
    obtain ⟨k', w⟩ := p
    by_cases e : k' = k
    · simp [mapIndex, e] at h
    · simp only [mapIndex, e, if_false] at h
      simp [mapAssign, e, ih h]

/-- C18 as stated fails: registering under `"locals"` on the empty registry
leaves the single entry of the anonymous list; no empty name-to-lines mapping
is stored for `"locals"`. -/
theorem mapResource_locals_no_mapping :
    mapIndex ([] : Registry) locals = none ∧
    MapResource [] locals (str "") [str "1-line-1", str "1-line-2"]
      = .ok [(locals, Value.blockList [[str "1-line-1", str "1-line-2"]])] ∧
    (locals, Value.nameMap []) ∉
      ([(locals, Value.blockList [[str "1-line-1", str "1-line-2"]])] : Registry) := by
  refine ⟨by decide, by decide, by decide⟩

/-- C18, amended: on a registry without the key `"locals"`, registering `l`
under `"locals"` with any name adds one entry, the anonymous list holding `l`
alone; the only value stored under `"locals"` is that list, and no
name-to-lines mapping is created for it. -/
theorem mapResource_locals_fresh (hm : Registry) (n : GoString) (l : List GoString)
    (h : mapIndex hm locals = none) :
    MapResource hm locals n l = .ok (hm ++ [(locals, Value.blockList [l])]) ∧
    ∀ v, (locals, v) ∈ hm ++ [(locals, Value.blockList [l])] → v = Value.blockList [l] := by
  constructor
  · rw [mapResource_eq, if_pos rfl]
    have h1 : ensureKey hm locals (Value.blockList []) = hm ++ [(locals, Value.blockList [])] := by
      rw [ensureKey, h]
      exact mapAssign_absent hm locals _ h
    have h2 : mapIndex (hm ++ [(locals, Value.blockList [])]) locals
        = some (Value.blockList []) := by
      rw [← mapAssign_absent hm locals _ h]
      exact mapIndex_assign_self hm locals _
    have h3 : ensureKey (hm ++ [(locals, Value.blockList [])]) locals (Value.nameMap [])
        = hm ++ [(locals, Value.blockList [])] := by
      rw [ensureKey, h2]
      rfl
    rw [h1, h3, h2]
    simp only []
    rw [mapAssign_append_self hm locals _ _ h]
    rfl
  · intro v hv
    rcases List.mem_append.1 hv with hv | hv
    · exact absurd hv (mapIndex_none_not_mem hm locals h v)
    · simp only [List.mem_singleton, Prod.mk.injEq] at hv
      exact hv.2

theorem mapResource_locals_fresh_witness :
    mapIndex ([] : Registry) locals = none ∧
    MapResource [] locals (str "") [str "1-line-1", str "1-line-2"]
      = .ok ([] ++ [(locals, Value.blockList [[str "1-line-1", str "1-line-2"]])]) ∧
    ∀ v, (locals, v) ∈ ([] : Registry) ++
        [(locals, Value.blockList [[str "1-line-1", str "1-line-2"]])] →
      v = Value.blockList [[str "1-line-1", str "1-line-2"]] :=
  ⟨by decide, mapResource_locals_fresh [] (str "") [str "1-line-1", str "1-line-2"] (by decide)⟩

/-! ## Well-formedness -/

/-- The registry returned by the scan is well-formed. -/
theorem retrieveResourceBlocks_wellFormed (lines : List GoString) (hm : Registry)
    (h : RetrieveResourceBlocks lines = .ok hm) : WellFormed hm := by
  obtain ⟨j, hj⟩ := scanLoop_inv lines lines.length 0 initState (inv_init lines)
  have hwf : WellFormed (scan lines).1.resourceHashMap := hj.wf
  unfold RetrieveResourceBlocks at h
  cases hs : scan lines with
  | mk s f =>
    rw [hs] at h hwf
    cases f with
    | none =>
      cases h
      exact hwf
    | some f => cases h

/-- The loop of the `list` command over any keys of a well-formed registry. -/
theorem listLoop_ok (hm : Registry) (hwf : WellFormed hm) (keys : List GoString)
    (hk : ∀ k ∈ keys, k ∈ hm.map Prod.fst) (logged : List GoString) :
    ∃ out, keys.foldlM (fun logged key =>
      if key ≠ locals then
        match mapIndex hm key with
        | some (Value.nameMap m) => Except.ok (logged ++ (m.map Prod.fst).dedup)
        | _ => Except.error Fault.typeAssertion
      else Except.ok logged) logged = Except.ok out := by
  induction keys generalizing logged with
  | nil => exact ⟨logged, rfl⟩
  | cons k rest ih =>
    have hrest : ∀ k' ∈ rest, k' ∈ hm.map Prod.fst := fun k' h' => hk k' (List.mem_cons_of_mem _ h')
    rw [List.foldlM_cons]
    by_cases e : k = locals
    · have e' : ¬ k ≠ locals := fun h => h e
      rw [if_neg e', ok_bind]
      exact ih hrest logged
    · obtain ⟨v, hv⟩ := mapIndex_of_mem_keys hm k (hk k (List.mem_cons_self _ _))
      have hf := hwf k v hv
      simp only [ValueFits, if_neg e] at hf
      obtain ⟨m, rfl⟩ := hf
      rw [if_pos e, hv]
      simp only []
      rw [ok_bind]
      exact ih hrest _

/-- C19: the empty registry is well-formed; `MapResource` on a well-formed
registry succeeds (its type assertions hold) and returns a well-formed registry,
for every type, name and lines; hence the registry that `RetrieveResourceBlocks`
returns is well-formed; and on a well-formed registry the `list` command, which
reads every key other than `"locals"` as a mapping, does not fail. -/
theorem wellFormed_invariant :
    WellFormed ([] : Registry) ∧
    (∀ (hm : Registry) (t n : GoString) (l : List GoString), WellFormed hm →
      ∃ hm', MapResource hm t n l = .ok hm' ∧ WellFormed hm') ∧
    (∀ (lines : List GoString) (hm : Registry),
      RetrieveResourceBlocks lines = .ok hm → WellFormed hm) ∧
    (∀ hm : Registry, WellFormed hm → ∃ logged, listCommand hm = .ok logged) := by
  refine ⟨wellFormed_nil, mapResource_wellFormed, retrieveResourceBlocks_wellFormed, ?_⟩
  intro hm hwf
  exact listLoop_ok hm hwf _ (fun k hk => List.mem_dedup.1 hk) []

/-! ## What MapResource leaves alone -/

/-- C20: on a well-formed registry `MapResource` succeeds and, for a type `t`
other than `"locals"`, leaves unchanged the anonymous list when there is one,
the value under every type other than `t` and `"locals"`, and every entry under
`t` whose name is not `n`; for the type `"locals"` it leaves unchanged the value
under every other type, so that no other key appears. -/
theorem mapResource_frame (hm : Registry) (t n : GoString) (l : List GoString)
    (hwf : WellFormed hm) :
    ∃ hm', MapResource hm t n l = .ok hm' ∧
      (t ≠ locals →
        (∀ L, anonymousList hm = some L → anonymousList hm' = some L) ∧
        (∀ t', t' ≠ t → t' ≠ locals → mapIndex hm' t' = mapIndex hm t') ∧
        (∀ n', n' ≠ n → namedEntry hm' t n' = namedEntry hm t n')) ∧
      (t = locals → ∀ t', t' ≠ locals → mapIndex hm' t' = mapIndex hm t') := by
  by_cases ht : t = locals
  · subst ht
    refine ⟨_, mapResource_locals_eq hm n l hwf, fun h => absurd rfl h, ?_⟩
    intro _ t' ht'
    rw [mapIndex_assign_ne _ _ _ _ ht', mapIndex_ensureKey_ne _ _ _ _ ht']
  · refine ⟨_, mapResource_named_eq hm t n l hwf ht, ?_, fun h => absurd h ht⟩
    intro _
    refine ⟨?_, ?_, ?_⟩
    · intro L hL
      unfold anonymousList at hL ⊢
      rw [mapIndex_assign_ne _ _ _ _ (Ne.symm ht), mapIndex_ensureKey_ne _ _ _ _ (Ne.symm ht),
        mapIndex_ensureKey_self]
      cases hv : mapIndex hm locals with
      | none => rw [hv] at hL; cases hL
      | some v =>
        rw [hv] at hL
        exact hL
    · intro t' h1 h2
      rw [mapIndex_assign_ne _ _ _ _ h1, mapIndex_ensureKey_ne _ _ _ _ h1,
        mapIndex_ensureKey_ne _ _ _ _ h2]
    · intro n' hn'
      unfold namedEntry
      rw [mapIndex_assign_self]
      simp only []
      rw [mapIndex_assign_ne _ _ _ _ hn']
      unfold namedMap
      cases hv : mapIndex hm t with
      | none => rfl
      | some v =>
        have hf := hwf t v hv
        simp only [ValueFits, if_neg ht] at hf
        obtain ⟨m, rfl⟩ := hf
        rfl

theorem mapResource_frame_witness :
    WellFormed testHashMap ∧
    ∃ hm', MapResource testHashMap (str "resource") (str "aws_vpc.this")
        [str "3-line-1", str "3-line-2"] = .ok hm' ∧
      (str "resource" ≠ locals →
        (∀ L, anonymousList testHashMap = some L → anonymousList hm' = some L) ∧
        (∀ t', t' ≠ str "resource" → t' ≠ locals → mapIndex hm' t' = mapIndex testHashMap t') ∧
        (∀ n', n' ≠ str "aws_vpc.this" →
          namedEntry hm' (str "resource") n' = namedEntry testHashMap (str "resource") n')) ∧
      (str "resource" = locals →
        ∀ t', t' ≠ locals → mapIndex hm' t' = mapIndex testHashMap t') :=
  ⟨wellFormed_testHashMap,
    mapResource_frame testHashMap (str "resource") (str "aws_vpc.this")
      [str "3-line-1", str "3-line-2"] wellFormed_testHashMap⟩

/-! ## Scanning a prefix of the input -/

/-- A slice that ends inside `p` does not see what follows `p`. -/
theorem slice_append {α : Type} (p q : List α) (lo hi : Int) (h : hi ≤ (p.length : Int)) :
    slice (p ++ q) lo hi = slice p lo hi := by
  unfold slice
  by_cases hc : 0 ≤ lo ∧ lo ≤ hi ∧ hi ≤ (p.length : Int)
  · have hc' : 0 ≤ lo ∧ lo ≤ hi ∧ hi ≤ ((p ++ q).length : Int) := by
      refine ⟨hc.1, hc.2.1, ?_⟩
      rw [List.length_append]
      push_cast
      omega
    rw [if_pos hc, if_pos hc']
    have h1 : lo.toNat ≤ p.length := by omega
    rw [List.drop_append_of_le_length h1, List.take_append_of_le_length]
    rw [List.length_drop]
    omega
  · have hc' : ¬ (0 ≤ lo ∧ lo ≤ hi ∧ hi ≤ ((p ++ q).length : Int)) := by
      intro h'
      exact hc ⟨h'.1, h'.2.1, h⟩
    rw [if_neg hc, if_neg hc']

theorem closeBlock_append (p q : List GoString) (i : Nat) (line : GoString) (s : ScanState)
    (hi : i < p.length) : closeBlock (p ++ q) i line s = closeBlock p i line s := by
  have hs : slice (p ++ q) s.startLine ((i : Int) + 1) = slice p s.startLine ((i : Int) + 1) :=
    slice_append p q s.startLine ((i : Int) + 1) (by omega)
  unfold closeBlock
  simp only []
  rw [hs]

/-- An iteration inside `p` does not see what follows `p`. -/
theorem loopBody_append (p q : List GoString) (i : Nat) (s : ScanState) (hi : i < p.length) :
    loopBody (p ++ q) i s = loopBody p i s := by
  have hidx : index (p ++ q) i = index p i := by
    unfold index
    rw [List.getElem?_append_left hi]
  unfold loopBody
  rw [hidx]
  cases index p i with
  | error f => rfl
  | ok line =>
    rw [ok_bind, ok_bind]
    cases openBlock line i s with
    | error f => rfl
    | ok s1 =>
      rw [ok_bind, ok_bind, closeBlock_append p q i line s1 hi]

theorem scanLoop_append (p q : List GoString) (n i : Nat) (s : ScanState)
    (h : i + n ≤ p.length) : scanLoop (p ++ q) n i s = scanLoop p n i s := by
  induction n generalizing i s with
  | zero => rfl
  | succ n ih =>
    unfold scanLoop
    rw [loopBody_append p q i s (by omega)]
    cases loopBody p i s with
    | error f => rfl
    | ok s' => exact ih (i + 1) s' (by omega)

theorem scanLoop_succ (lines : List GoString) (n i : Nat) (s : ScanState) :
    scanLoop lines (n + 1) i s =
      match loopBody lines i s with
      | .ok s' => scanLoop lines n (i + 1) s'
      | .error f => (s, some f) := rfl

/-- Running `n + m` iterations is running `n` and then, unless a panic stopped
them, `m` more. -/
theorem scanLoop_add (lines : List GoString) (n m i : Nat) (s : ScanState) :
    scanLoop lines (n + m) i s =
      match scanLoop lines n i s with
      | (s', none) => scanLoop lines m (i + n) s'
      | (s', some f) => (s', some f) := by
  induction n generalizing i s with
  | zero => simp [scanLoop]
  | succ n ih =>
    have e : n + 1 + m = (n + m) + 1 := by omega
    rw [e, scanLoop_succ lines (n + m) i s, scanLoop_succ lines n i s]
    cases loopBody lines i s with
    | error f => rfl
    | ok s' =>
      simp only []
      rw [ih (i + 1) s']
      have e2 : i + 1 + n = i + (n + 1) := by omega
      rw [e2]

/-! ## A block that never closes -/

theorem closeBlock_continue (lines : List GoString) (i : Nat) (line : GoString) (s : ScanState)
    (h : countBrackets line s.bracketValue ≠ 0) :
    closeBlock lines i line s
      = .ok { s with bracketValue := countBrackets line s.bracketValue } := by
  unfold closeBlock
  simp only [h, if_false]
  rfl

/-- Inside a block, a line that does not bring the counter to 0 only updates
the counter. -/
theorem loopBody_busy (lines : List GoString) (i : Nat) (line : GoString) (s : ScanState)
    (hl : lines[i]? = some line) (hp : s.parsingResource = true)
    (h : countBrackets line s.bracketValue ≠ 0) :
    loopBody lines i s = .ok { s with bracketValue := countBrackets line s.bracketValue } := by
  have hidx : index lines i = .ok line := by simp [index, hl]
  have ho : openBlock line i s = .ok s := by
    unfold openBlock
    simp [hp]
    rfl
  unfold loopBody
  rw [hidx, ok_bind, ho, ok_bind]
  have hn : (!s.parsingResource) = false := by rw [hp]; rfl
  rw [hn, if_neg Bool.false_ne_true]
  exact closeBlock_continue lines i line s h

/-- Outside a block, a line with `'{'` that classifies and does not bring the
counter to 0 opens a block. -/
theorem loopBody_open (lines : List GoString) (i : Nat) (line : GoString) (s : ScanState)
    (t n : GoString) (hl : lines[i]? = some line) (hp : s.parsingResource = false)
    (hb : lbrace ∈ line) (hd : DetermineResource line = .ok (t, n))
    (h : countBrackets line s.bracketValue ≠ 0) :
    loopBody lines i s
      = .ok { s with startLine := i, parsingResource := true, resourceType := t,
                     resourceName := n,
                     bracketValue := countBrackets line s.bracketValue } := by
  have hidx : index lines i = .ok line := by simp [index, hl]
  have hc : strings.Contains line lbrace = true := (contains_iff line lbrace).2 hb
  have ho : openBlock line i s
      = .ok { s with startLine := i, parsingResource := true, resourceType := t,
                     resourceName := n } := by
    unfold openBlock
    simp only [hp, Bool.not_false, if_true, hc, hd]
    rfl
  unfold loopBody
  rw [hidx, ok_bind, ho, ok_bind]
  exact closeBlock_continue lines i line
    { s with startLine := i, parsingResource := true, resourceType := t, resourceName := n } h

/-- Inside a block opened at `st`, while the net count of the lines from `st`
stays away from 0 the scan goes on without registering anything. -/
theorem scanLoop_busy (lines : List GoString) (st m i : Nat) (s : ScanState)
    (hlen : i + m ≤ lines.length) (hst : st ≤ i) (hp : s.parsingResource = true)
    (hd : s.bracketValue = netDepth (window lines st (i - st)))
    (hnz : ∀ k, i - st < k → k ≤ i + m - st → netDepth (window lines st k) ≠ 0) :
    ∃ s', scanLoop lines m i s = (s', none) ∧
      s'.resourceHashMap = s.resourceHashMap ∧ s'.emitted = s.emitted := by
  induction m generalizing i s with
  | zero => exact ⟨s, rfl, rfl, rfl⟩
  | succ m ih =>
    have hi : i < lines.length := by omega
    have hl : lines[i]? = some lines[i] := List.getElem?_eq_getElem hi
    have hcount : countBrackets lines[i] s.bracketValue
        = netDepth (window lines st (i + 1 - st)) := by
      rw [hd]
      exact countBrackets_window lines st i lines[i] hst hl
    have hne : countBrackets lines[i] s.bracketValue ≠ 0 := by
      rw [hcount]
      exact hnz (i + 1 - st) (by omega) (by omega)
    rw [scanLoop_succ, loopBody_busy lines i lines[i] s hl hp hne]
    obtain ⟨s', h1, h2, h3⟩ := ih (i + 1)
      { s with bracketValue := countBrackets lines[i] s.bracketValue }
      (by omega) (by omega) hp hcount (fun k hk1 hk2 => hnz k (by omega) (by omega))
    exact ⟨s', h1, h2, h3⟩

/-- After a scan of `P` that ends outside a block, the counter is 0. -/
theorem scan_idle_counter (P : List GoString) (s : ScanState) (f : Option Fault)
    (hP : scan P = (s, f)) (hp : s.parsingResource = false) : s.bracketValue = 0 := by
  obtain ⟨j, hj⟩ := scanLoop_inv P P.length 0 initState (inv_init P)
  have hj' : Inv P j (scan P).1 := hj
  rw [hP] at hj'
  exact (hj'.idle hp).1

/-- A trailing partial block is dropped whenever its opening line can be
classified: after an input `P` that leaves the scan outside a block, lines `S0`
without `'{'` followed by lines `S1` that open a block (on a line for which
`DetermineResource` returns) and never bring the net count back to 0 change
neither the registry nor the emitted blocks. -/
theorem trailing_partial_dropped (P S0 S1 : List GoString) (s : ScanState)
    (hP : scan P = (s, none)) (hp : s.parsingResource = false)
    (h0 : ∀ line ∈ S0, lbrace ∉ line)
    (hhead : ∀ line, S1.head? = some line →
      lbrace ∈ line ∧ ∃ r, DetermineResource line = .ok r)
    (h1 : ∀ k, 0 < k → k ≤ S1.length → netDepth (S1.take k) ≠ 0) :
    RetrieveResourceBlocks (P ++ (S0 ++ S1)) = RetrieveResourceBlocks P ∧
    emittedBlocks (P ++ (S0 ++ S1)) = emittedBlocks P := by
  have hz : s.bracketValue = 0 := scan_idle_counter P s none hP hp
  have hlen : (P ++ (S0 ++ S1)).length = P.length + (S0.length + S1.length) := by
    simp [List.length_append]
  have hpre : scanLoop (P ++ (S0 ++ S1)) P.length 0 initState = (s, none) := by
    rw [scanLoop_append P (S0 ++ S1) P.length 0 initState (by omega)]
    exact hP
  have hskip : scanLoop (P ++ (S0 ++ S1)) S0.length (0 + P.length) s = (s, none) := by
    apply scanLoop_skip _ _ _ _ hp (by rw [hlen]; omega)
    intro j line hj1 hj2 hl
    rw [List.getElem?_append_right (by omega), List.getElem?_append_left (by omega)] at hl
    exact h0 line (List.getElem?_mem hl)
  have hdrop : (P ++ (S0 ++ S1)).drop (0 + P.length + S0.length) = S1 := by
    rw [Nat.zero_add, ← List.append_assoc, ← List.length_append, List.drop_left]
  have hw : ∀ k, window (P ++ (S0 ++ S1)) (0 + P.length + S0.length) k = S1.take k := by
    intro k
    unfold window
    rw [hdrop]
  have hrest : ∃ s', scanLoop (P ++ (S0 ++ S1)) S1.length (0 + P.length + S0.length) s
      = (s', none) ∧ s'.resourceHashMap = s.resourceHashMap ∧ s'.emitted = s.emitted := by
    cases hS1 : S1 with
    | nil => exact ⟨s, rfl, rfl, rfl⟩
    | cons l1 rest =>
      obtain ⟨hb, ⟨t, n⟩, hd⟩ := hhead l1 (by rw [hS1]; rfl)
      have hl : (P ++ (S0 ++ S1))[0 + P.length + S0.length]? = some l1 := by
        have e := List.getElem?_drop (P ++ (S0 ++ S1)) (0 + P.length + S0.length) 0
        rw [hdrop, Nat.add_zero] at e
        rw [← e, hS1]
        simp
      have hc : countBrackets l1 s.bracketValue
          = netDepth (window (P ++ (S0 ++ S1)) (0 + P.length + S0.length) 1) := by
        rw [hz, countBrackets_eq, hw, hS1]
        simp
      have hne : countBrackets l1 s.bracketValue ≠ 0 := by
        rw [hc, hw]
        exact h1 1 (by omega) (by rw [hS1]; simp)
      rw [← hS1]
      have hlen1 : S1.length = rest.length + 1 := by rw [hS1]; rfl
      rw [hlen1, scanLoop_succ,
        loopBody_open _ _ l1 s t n hl hp hb hd hne]
      obtain ⟨s', e1, e2, e3⟩ := scanLoop_busy (P ++ (S0 ++ S1)) (0 + P.length + S0.length)
        rest.length (0 + P.length + S0.length + 1)
        { s with startLine := ((0 + P.length + S0.length : Nat) : Int), parsingResource := true,
                 resourceType := t, resourceName := n,
                 bracketValue := countBrackets l1 s.bracketValue }
        (by rw [hlen]; omega) (by omega) rfl
        (by
          show countBrackets l1 s.bracketValue = _
          rw [hc]
          congr 2
          omega)
        (fun k hk1 hk2 => by
          rw [hw]
          exact h1 k (by omega) (by omega))
      exact ⟨s', e1, e2, e3⟩
  obtain ⟨s', hs', hm', hem'⟩ := hrest
  have hscan : scan (P ++ (S0 ++ S1)) = (s', none) := by
    unfold scan
    rw [hlen, scanLoop_add, hpre]
    simp only []
    rw [scanLoop_add, hskip]
    exact hs'
  constructor
  · unfold RetrieveResourceBlocks
    rw [hscan, hP]
    simp only []
    rw [hm']
  · unfold emittedBlocks
    rw [hscan, hP]
    exact hem'

/-- C12: after the empty input, which leaves the scan outside a block, the
one-line suffix `{` opens a block whose net count never returns to 0; the scan
of the whole input stops with a panic, while the scan of the empty input
returns the empty registry. -/
theorem trailing_brace_faults :
    scan [] = (initState, none) ∧ initState.parsingResource = false ∧
    lbrace ∈ str "\x7b" ∧ netDepth [str "\x7b"] = 1 ∧
    RetrieveResourceBlocks ([] ++ [str "\x7b"]) = .error Fault.sliceBounds ∧
    RetrieveResourceBlocks [] = .ok [] := by
  refine ⟨rfl, rfl, by decide, by decide, by decide, by decide⟩

end TfParser
